import Mathlib

set_option maxRecDepth 10000

/-!
Verification of the graph-construction and dependency-resolution pipeline of
the i-reason data generator (src/ireason/data_generator.py):

* `calculate_op` / `get_node_dependencies` / `generate_G_d_nece1` embed the
  operation-cost function `_calculate_op` and the budget-bounded subgraph
  extractor `_generate_G_d_nece1`;
* `generate_abstract_parameter_graph` embeds the dependency-graph builder
  `_generate_abstract_parameter_graph`;
* `generate_structure_graph` embeds the randomized layered-graph builder
  `_generate_structure_graph` (randomness is modelled by an arbitrary stream
  of naturals, so theorems quantify over every possible sequence of draws);
* a small model of Python method dispatch settles the behaviour of the
  public entry point `generate_data`.

Graphs mirror networkx: insertion-ordered node lists carrying attribute
records, and duplicate-free edge lists.  Node attribute records keep exactly
the keys that the embedded algorithms read; attribute keys that are copied
around but never read by any modelled operation (english_name, layers, the
back-reference node, abstract_nodes) are omitted.  The `print` calls and the
plotting helpers of the source are ignored.
-/

namespace IReason

/-- Attributes of a node of a dependency graph (networkx.DiGraph node dict).
Of the attribute dictionaries built by the source we keep the two keys the
embedded algorithms read: "difficulty_level" (absent on raw structure nodes)
and "category". -/
structure AAttrs where
  difficulty_level : Option Nat
  category : Option String
deriving DecidableEq

/-- networkx.DiGraph: insertion-ordered node list with attributes and a
duplicate-free directed edge list. -/
structure DiGraph (α : Type) where
  nodes : List (α × AAttrs)
  edges : List (α × α)
deriving DecidableEq

variable {α : Type} [DecidableEq α]

def DiGraph.empty : DiGraph α := ⟨[], []⟩

def DiGraph.nodeIds (G : DiGraph α) : List α := G.nodes.map Prod.fst

def DiGraph.hasNode (G : DiGraph α) (v : α) : Bool :=
  G.nodes.any (fun p => decide (p.1 = v))

/-- Attribute lookup `G.nodes[v]`. -/
def DiGraph.attrOf (G : DiGraph α) (v : α) : Option AAttrs :=
  (G.nodes.find? (fun p => decide (p.1 = v))).map Prod.snd

/-- `G.add_node(v, **a)`: update the attributes in place when the node is
already present, otherwise append it. -/
def DiGraph.addNode (G : DiGraph α) (v : α) (a : AAttrs) : DiGraph α :=
  if G.hasNode v then
    ⟨G.nodes.map (fun p => if p.1 = v then (v, a) else p), G.edges⟩
  else ⟨G.nodes ++ [(v, a)], G.edges⟩

/-- Insert a node with empty attributes when absent (what `add_edge` does to
a missing endpoint). -/
def DiGraph.ensure (G : DiGraph α) (v : α) : DiGraph α :=
  if G.hasNode v then G else ⟨G.nodes ++ [(v, ⟨none, none⟩)], G.edges⟩

/-- `G.add_edge(u, v)`: insert missing endpoints (with empty attributes),
then add the edge unless it is already present. -/
def DiGraph.addEdge (G : DiGraph α) (u v : α) : DiGraph α :=
  if (u, v) ∈ ((G.ensure u).ensure v).edges then (G.ensure u).ensure v
  else ⟨((G.ensure u).ensure v).nodes, ((G.ensure u).ensure v).edges ++ [(u, v)]⟩

def DiGraph.inDegree (G : DiGraph α) (v : α) : Nat :=
  (G.edges.filter (fun e => decide (e.2 = v))).length

/-- `_calculate_op`: sum over all nodes of `max(1, in_degree - 1)`.  Natural
subtraction agrees with the Python expression for every in-degree (at
in-degree 0 Python computes `max(1, -1) = 1` and we compute `max 1 0 = 1`). -/
def calculate_op (G : DiGraph α) : Nat :=
  (G.nodes.map (fun a => max 1 (G.inDegree a.1 - 1))).sum

/-- The per-node summand of `_calculate_op`. -/
def nodeContribution (G : DiGraph α) (v : α) : Nat := max 1 (G.inDegree v - 1)

/-- `_get_node_dependencies`: the list of direct predecessors of a node. -/
def get_node_dependencies (G : DiGraph α) (v : α) : List α :=
  (G.edges.filter (fun e => decide (e.2 = v))).map Prod.fst

/-- The candidate construction inside `_generate_G_d_nece1`: a copy of the
accumulated subgraph, plus the candidate node with its attributes from the
abstract graph, plus every direct dependency with its attributes and an edge
into the candidate. -/
def addCandidate (ag G : DiGraph α) (v : α) : DiGraph α :=
  let G1 := G.addNode v ((ag.attrOf v).getD ⟨none, none⟩)
  (get_node_dependencies ag v).foldl
    (fun g d => (g.addNode d ((ag.attrOf d).getD ⟨none, none⟩)).addEdge d v) G1

/-- The inner `for node in abstract_graph` loop of `_generate_G_d_nece1` at a
fixed difficulty level: scan the nodes in insertion order; at the first node
of the current difficulty that is not yet in the subgraph and whose candidate
extension stays within the budget, commit the extension and stop (the `break`
of the source). -/
def tryNodes (ag : DiGraph α) (n d : Nat) (G : DiGraph α) :
    List (α × AAttrs) → DiGraph α × Bool
  | [] => (G, false)
  | p :: rest =>
    if p.2.difficulty_level = some d ∧ ¬ G.hasNode p.1 then
      if calculate_op (addCandidate ag G p.1) ≤ n then (addCandidate ag G p.1, true)
      else tryNodes ag n d G rest
    else tryNodes ag n d G rest

/-- The `for curr_difficulty in range(max_difficulty, 0, -1)` loop: one full
descending sweep over the difficulty levels, threading the subgraph and
or-ing the update flags. -/
def sweep (ag : DiGraph α) (n : Nat) : Nat → DiGraph α → DiGraph α × Bool
  | 0, G => (G, false)
  | d + 1, G =>
    ((sweep ag n d (tryNodes ag n (d + 1) G ag.nodes).1).1,
     (tryNodes ag n (d + 1) G ag.nodes).2 ||
       (sweep ag n d (tryNodes ag n (d + 1) G ag.nodes).1).2)

/-- `max(difficulty_level with default 0 over the nodes)`; the source takes
the max of a list comprehension (which raises on an empty graph — the empty
case is handled at the call site). -/
def maxDifficulty (ag : DiGraph α) : Nat :=
  (ag.nodes.map (fun p => p.2.difficulty_level.getD 0)).foldl max 0

/-- The `while updated` loop of `_generate_G_d_nece1`, with explicit fuel.
Every iteration except the last commits at least one new node, so
`ag.nodes.length + 1` iterations always reach the fixed point. -/
def extractLoop (ag : DiGraph α) (n : Nat) : Nat → DiGraph α → DiGraph α
  | 0, G => G
  | fuel + 1, G =>
    let r := sweep ag n (maxDifficulty ag) G
    if r.2 then extractLoop ag n fuel r.1 else r.1

/-- `_generate_G_d_nece1(structure_graph, abstract_graph, n, m)`: the
structure graph and the parameter `m` are never used by the body.  On an
empty abstract graph the source raises (`max` of an empty sequence), modelled
as `none`. -/
def generate_G_d_nece1 (ag : DiGraph α) (n : Nat) : Option (DiGraph α) :=
  if ag.nodes.isEmpty then none
  else some (extractLoop ag n (ag.nodes.length + 1) DiGraph.empty)

/-- The node ids of the extracted subgraph (empty graph when the extractor
raises). -/
def resultIds (ag : DiGraph α) (n : Nat) : List α :=
  ((generate_G_d_nece1 ag n).getD DiGraph.empty).nodeIds

/-- `True` when some node of the abstract graph, together with its direct
dependencies, fits within the budget `n` on its own (the nodes at difficulty
level at least 1 are exactly the ones the extractor ever tries to add). -/
def addableB (ag : DiGraph α) (n : Nat) : Bool :=
  ag.nodes.any (fun p =>
    match p.2.difficulty_level with
    | some d =>
        decide (1 ≤ d) && decide (calculate_op (addCandidate ag DiGraph.empty p.1) ≤ n)
    | none => false)

/-! ## The structure graph and the abstract parameter graph builder -/

/-- Attributes of a structure-graph node: "layer" (1-indexed), "category" and
"english_name". -/
structure SNode where
  layer : Nat
  category : String
  english_name : String
deriving DecidableEq

/-- networkx.Graph (undirected): insertion-ordered node list with attributes
and a duplicate-free edge list; an edge is stored once, in the orientation in
which `add_edge` received it. -/
structure UGraph (ι : Type) where
  nodes : List (ι × SNode)
  edges : List (ι × ι)
deriving DecidableEq

variable {ι : Type} [DecidableEq ι]

def UGraph.nodeIds (g : UGraph ι) : List ι := g.nodes.map Prod.fst

def UGraph.hasNode (g : UGraph ι) (v : ι) : Bool :=
  g.nodes.any (fun p => decide (p.1 = v))

/-- Attribute lookup `structure_graph.nodes[v]` (total, with a default record
for ids that are not in the graph — the embedded algorithms only look up ids
that are present). -/
def attrOfS (g : UGraph ι) (v : ι) : SNode :=
  ((g.nodes.find? (fun p => decide (p.1 = v))).map Prod.snd).getD ⟨0, "", ""⟩

def UGraph.addNode (g : UGraph ι) (v : ι) (a : SNode) : UGraph ι :=
  if g.hasNode v then
    ⟨g.nodes.map (fun p => if p.1 = v then (v, a) else p), g.edges⟩
  else ⟨g.nodes ++ [(v, a)], g.edges⟩

def UGraph.hasEdge (g : UGraph ι) (a b : ι) : Bool :=
  g.edges.any (fun e =>
    (decide (e.1 = a) && decide (e.2 = b)) || (decide (e.1 = b) && decide (e.2 = a)))

/-- Insert a node with default attributes when absent. -/
def UGraph.ensure (g : UGraph ι) (v : ι) : UGraph ι :=
  if g.hasNode v then g else ⟨g.nodes ++ [(v, ⟨0, "", ""⟩)], g.edges⟩

/-- `g.add_edge(a, b)`: insert missing endpoints, then record the edge unless
it is already present in either orientation. -/
def UGraph.addEdge (g : UGraph ι) (a b : ι) : UGraph ι :=
  if g.hasEdge a b then (g.ensure a).ensure b
  else ⟨((g.ensure a).ensure b).nodes, ((g.ensure a).ensure b).edges ++ [(a, b)]⟩

/-- `structure_graph.neighbors(v)` of the undirected graph. -/
def neighborsOf (g : UGraph ι) (v : ι) : List ι :=
  g.edges.filterMap (fun e =>
    if e.1 = v then some e.2 else if e.2 = v then some e.1 else none)

/-- A node of the abstract parameter graph: either a raw structure node, or
an abstract parameter `Abstract_{node}_Layer{tag}_{english_name}` where the
embedded english name is `{owner english name}'s {category}`.  Because the
owner id determines the owner english name, the triple (owner id, layer tag,
category) determines the Python node string, and distinct triples give
distinct strings (the categories of a categorization window are pairwise
distinct, which the theorems below take as a hypothesis), so the structured
id is a faithful model of the string id. -/
inductive PNode (ι : Type) where
  | raw : ι → PNode ι
  | abs : ι → Nat → String → PNode ι
deriving DecidableEq

/-- The category of `layers[j][0]`, which is what the source reads as
`lower_layer_category` when the lower layer is `layers[j]`. -/
def catAt (sg : UGraph ι) (layers : List (List ι)) (j : Nat) [Inhabited ι] : String :=
  (attrOfS sg ((layers.getD j []).headD default)).category

/-- The mutable `abstract_nodes` attribute of the structure-graph nodes,
kept as a separate association list. -/
def amapGet (m : List (ι × List (PNode ι))) (v : ι) : List (PNode ι) :=
  ((m.find? (fun q => decide (q.1 = v))).map Prod.snd).getD []

def amapAppend (m : List (ι × List (PNode ι))) (v : ι) (a : PNode ι) :
    List (ι × List (PNode ι)) :=
  if m.any (fun q => decide (q.1 = v)) then
    m.map (fun q => if q.1 = v then (q.1, q.2 ++ [a]) else q)
  else m ++ [(v, [a])]

/-- State threaded through `_generate_abstract_parameter_graph`: the growing
DiGraph `G_a` and the `abstract_nodes` attributes of the structure graph. -/
structure AbsState (ι : Type) where
  ga : DiGraph (PNode ι)
  amap : List (ι × List (PNode ι))

/-- The `for aa_node in associated_abstract_nodes` body: read the associated
difficulty and category from `G_a`, create the composed parameter at
difficulty `1 + associated_difficulty` with layer tag `i + associated
difficulty`, and add the dependency edge.  (On every reachable state the
attribute reads succeed; the `getD` defaults mirror Python `.get`.) -/
def processAA (i : Nat) (node : ι) (st : AbsState ι) (aa : PNode ι) : AbsState ι :=
  let aAttrs := (st.ga.attrOf aa).getD ⟨none, none⟩
  let ad := aAttrs.difficulty_level.getD 0
  let acat := aAttrs.category.getD "None"
  let cid : PNode ι := PNode.abs node (i + ad) acat
  let ga1 := st.ga.addNode cid ⟨some (1 + ad), some acat⟩
  ⟨ga1.addEdge aa cid, st.amap⟩

/-- The neighbors of `node` that lie in layer `i + 2` (selected by the layer
attribute, exactly as the source filters `structure_graph.neighbors`). -/
def nbrsOf (sg : UGraph ι) (i : Nat) (node : ι) : List ι :=
  (neighborsOf sg node).filter (fun nb => decide ((attrOfS sg nb).layer = i + 2))

/-- The `for nei in neighbors` body: add the raw neighbor with its structure
attributes, the dependency edge into the difficulty-1 parameter `pid`, and
then the composed parameters for every abstract parameter the neighbor
owns. -/
def processNei (i : Nat) (node : ι) (pid : PNode ι) (sg : UGraph ι)
    (st2 : AbsState ι) (nei : ι) : AbsState ι :=
  (amapGet st2.amap nei).foldl (processAA i node)
    ⟨(st2.ga.addNode (PNode.raw nei) ⟨none, some (attrOfS sg nei).category⟩).addEdge
       (PNode.raw nei) pid,
     st2.amap⟩

/-- The body of the `for node in higher_layer_nodes` loop of
`_generate_abstract_parameter_graph` at layer index `i`: collect the
neighbors lying in layer `i+2` (by the layer attribute), and if there are
any, create the difficulty-1 parameter, record it in `abstract_nodes`, then
process every neighbor. -/
def processNode (sg : UGraph ι) (layers : List (List ι)) (i : Nat) [Inhabited ι]
    (st : AbsState ι) (node : ι) : AbsState ι :=
  if (nbrsOf sg i node).isEmpty then st
  else
    (nbrsOf sg i node).foldl
      (processNei i node (PNode.abs node (i + 1) (catAt sg layers (i + 1))) sg)
      ⟨st.ga.addNode (PNode.abs node (i + 1) (catAt sg layers (i + 1)))
         ⟨some 1, some (catAt sg layers (i + 1))⟩,
       amapAppend st.amap node (PNode.abs node (i + 1) (catAt sg layers (i + 1)))⟩

/-- `_generate_abstract_parameter_graph(structure_graph, layers)`: traverse
the layer indices `num_layers - 2, ..., 0` and process every node of each
layer. -/
def generate_abstract_parameter_graph (sg : UGraph ι) (layers : List (List ι))
    [Inhabited ι] : DiGraph (PNode ι) :=
  ((List.range (layers.length - 1)).reverse.foldl
    (fun st i => (layers.getD i []).foldl (processNode sg layers i) st)
    ⟨DiGraph.empty, []⟩).ga

/-- The attribute record every node of the abstract parameter graph is
pinned to, as a function of its id: raw nodes carry no difficulty level and
their structure category; a parameter with layer tag `t` carries difficulty
1 when its category is the layer-`t` category (the difficulty-1 parameters)
and difficulty 2 otherwise (the composed parameters, whose category is the
layer-`t+1` category). -/
def pinnedAttrs (sg : UGraph ι) (layers : List (List ι)) [Inhabited ι] :
    PNode ι → AAttrs
  | .raw v => ⟨none, some (attrOfS sg v).category⟩
  | .abs _ t c => ⟨some (if c = catAt sg layers t then 1 else 2), some c⟩

/-- Rank used for the acyclicity proof: raw nodes 0, parameters their pinned
difficulty level. -/
def rankOf (sg : UGraph ι) (layers : List (List ι)) [Inhabited ι]
    (p : PNode ι) : Nat :=
  ((pinnedAttrs sg layers p).difficulty_level).getD 0

/-- Inductive invariant of the abstract-parameter-graph construction: every
node carries its pinned attributes; every recorded `abstract_nodes` entry of
a structure node is a parameter of that node whose layer tag is the owner's
layer attribute (in particular a difficulty-1 parameter present in the
graph); and every edge strictly increases the rank. -/
def AbsInv (sg : UGraph ι) (layers : List (List ι)) [Inhabited ι]
    (st : AbsState ι) : Prop :=
  (∀ q ∈ st.ga.nodes, q.2 = pinnedAttrs sg layers q.1) ∧
  (∀ q ∈ st.amap, ∀ aa ∈ q.2,
    ∃ t, aa = PNode.abs q.1 t (catAt sg layers t) ∧
      (attrOfS sg q.1).layer = t ∧ t < layers.length ∧ st.ga.hasNode aa = true) ∧
  (∀ e ∈ st.ga.edges, rankOf sg layers e.1 < rankOf sg layers e.2)

/-- Hypothesis on the builder input (guaranteed by the structure graph
builder): every node listed in `layers[j]` has layer attribute `j + 1`. -/
def LayerAttrOk (sg : UGraph ι) (layers : List (List ι)) : Prop :=
  ∀ j < layers.length, ∀ v ∈ layers.getD j [], (attrOfS sg v).layer = j + 1

/-- Hypothesis on the builder input (guaranteed by category selection, which
assigns a window of pairwise distinct categories): adjacent layers have
distinct categories. -/
def CatOk (sg : UGraph ι) (layers : List (List ι)) [Inhabited ι] : Prop :=
  ∀ j < layers.length, j + 2 < layers.length →
    catAt sg layers (j + 1) ≠ catAt sg layers (j + 2)

/-! ## Reachability and acyclicity for directed graphs -/

/-- Reachability along at least one edge. -/
inductive Reach (G : DiGraph α) : α → α → Prop where
  | step : ∀ u v, (u, v) ∈ G.edges → Reach G u v
  | trans : ∀ u v w, (u, v) ∈ G.edges → Reach G v w → Reach G u w

/-- A directed graph is acyclic when no node reaches itself. -/
def Acyclic (G : DiGraph α) : Prop := ∀ v, ¬ Reach G v v

/-! ## The randomized structure graph builder

Randomness is modelled by an arbitrary stream of naturals: each call of the
`random` module consumes the next element.  `random.randint(a, b)` maps the
draw into `[a, b]`; `random.choice(xs)` picks the element at the draw modulo
the length; the two `random.uniform(0, 1)` values of the source only ever
meet in the comparison `random.uniform(0,1) < probability`, so both are
modelled as plain natural draws compared with `<`.  Theorems quantify over
every stream, hence over every possible sequence of draws. -/

structure Rnd where
  s : Nat → Nat
  k : Nat

def Rnd.next (r : Rnd) : Nat × Rnd := (r.s r.k, ⟨r.s, r.k + 1⟩)

/-- `random.randint(a, b)` (requires `a ≤ b` in Python; total here). -/
def randint (a b : Nat) (r : Rnd) : Nat × Rnd :=
  let (x, r1) := r.next
  (a + x % (b - a + 1), r1)

/-- `random.choice(xs)` (raises on an empty list in Python; total here with a
default). -/
def choiceL {β : Type} (xs : List β) (d : β) (r : Rnd) : β × Rnd :=
  let (x, r1) := r.next
  (xs.getD (x % xs.length) d, r1)

/-- The hierarchical categorizations of `_initialize_categories` (the
per-category item lists feed only the name assignment, which is not modelled
— see `generate_structure_graph`). -/
def hierarchical_categories : List (List String) :=
  [["District", "Supermarket", "Product", "Ingredient"],
   ["Zoo", "Enclosure", "Animal", "Bone"],
   ["School", "Classroom", "Backpack", "Stationery"],
   ["Ecosystems", "Creatures", "Organs", "Cells"]]

/-- `_select_categories`: one categorization uniformly at random, then a
contiguous window of length `num_layers` starting at a uniformly random
valid index. -/
def select_categories (num_layers : Nat) (r : Rnd) : List String × Rnd :=
  let (cz, r1) := choiceL hierarchical_categories [] r
  let (start, r2) := randint 0 (cz.length - num_layers) r1
  ((cz.drop start).take num_layers, r2)

/-- `e^- = l_2 + ... + l_d`. -/
def currentMinEdges (ls : List Nat) : Nat := (ls.drop 1).sum

/-- `e^+ = l_1*l_2 + l_2*l_3 + ...`. -/
def currentMaxEdges (ls : List Nat) : Nat :=
  ((ls.zip (ls.drop 1)).map (fun p => p.1 * p.2)).sum

/-- One growth step target: bump `layer_sizes[i]`. -/
def bumpAt (ls : List Nat) (i : Nat) : List Nat := ls.set i (ls.getD i 0 + 1)

/-- The indices of the layers that can still grow
(`[i for i in range(num_layers) if layer_sizes[i] < max_items_per_layer]`). -/
def belowMaxIdxs (maxI L : Nat) (ls : List Nat) : List Nat :=
  (List.range L).filter (fun i => decide (ls.getD i 0 < maxI))

/-- The `while layer_sizes != [max_items_per_layer] * num_layers` loop of
`_generate_structure_graph`, with explicit fuel; every iteration that does
not exit grows one layer, so `L * (max - min)` fuel always suffices (proved
below).  `none` models fuel exhaustion, which is unreachable from the
initial state. -/
def growthLoop (maxI numE L p : Nat) : Nat → List Nat → Rnd → Option (List Nat × Rnd)
  | 0, ls, r => if ls = List.replicate L maxI then some (ls, r) else none
  | fuel + 1, ls, r =>
    if ls = List.replicate L maxI then some (ls, r)
    else if currentMaxEdges ls < numE then
      growthLoop maxI numE L p fuel
        (bumpAt ls (choiceL (belowMaxIdxs maxI L ls) 0 r).1)
        (choiceL (belowMaxIdxs maxI L ls) 0 r).2
    else if currentMinEdges ls = numE then some (ls, r)
    else if (r.next).1 < p then
      if (belowMaxIdxs maxI L ls).isEmpty then some (ls, (r.next).2)
      else
        growthLoop maxI numE L p fuel
          (bumpAt ls (choiceL (belowMaxIdxs maxI L ls) 0 (r.next).2).1)
          (choiceL (belowMaxIdxs maxI L ls) 0 (r.next).2).2
    else some (ls, (r.next).2)

/-- Layer node ids.  The source builds the string `Layer{i+1}_Node{j+1}`;
the format is injective in the pair, which we use directly as the id. -/
def mkLayers (ls : List Nat) : List (List (Nat × Nat)) :=
  (List.range ls.length).map (fun i =>
    (List.range (ls.getD i 0)).map (fun j => (i + 1, j + 1)))

/-- The attribute record every structure-graph node is pinned to, as a
function of its id (the first id component is the 1-indexed layer). -/
def pinnedS (cats : List String) (v : Nat × Nat) : SNode :=
  ⟨v.1, cats.getD (v.1 - 1) "", ""⟩

/-- Orientation normalization of an adjacent-layer edge (shallower layer
first); used to count distinct undirected edges. -/
def normEdge (e : (Nat × Nat) × (Nat × Nat)) : (Nat × Nat) × (Nat × Nat) :=
  if e.1.1 ≤ e.2.1 then e else (e.2, e.1)

/-- Materialize the nodes: layer attribute `i + 1` and the selected category
of the layer.  The english names assigned afterwards by `_assign_names` only
set the `english_name` attribute and are not modelled. -/
def addNodesAll (layers : List (List (Nat × Nat))) (cats : List String) :
    UGraph (Nat × Nat) :=
  (List.range layers.length).foldl (fun g i =>
    (layers.getD i []).foldl (fun g v => g.addNode v ⟨i + 1, cats.getD i "", ""⟩) g)
    ⟨[], []⟩

/-- One step of the connectivity phase: draw a uniformly random parent from
layer `i - 1` and connect the node to it. -/
def parentStep (layers : List (List (Nat × Nat))) (i : Nat)
    (gr : UGraph (Nat × Nat) × Rnd) (node : Nat × Nat) :
    UGraph (Nat × Nat) × Rnd :=
  (gr.1.addEdge node (choiceL (layers.getD (i - 1) []) (0, 0) gr.2).1,
   (choiceL (layers.getD (i - 1) []) (0, 0) gr.2).2)

/-- The connectivity phase: for every node of every layer `i ≥ 1` (0-indexed)
add an edge to a uniformly random node of layer `i - 1`. -/
def addParentEdges (layers : List (List (Nat × Nat))) (g : UGraph (Nat × Nat))
    (r : Rnd) : UGraph (Nat × Nat) × Rnd :=
  ((List.range layers.length).drop 1).foldl (fun gr i =>
    (layers.getD i []).foldl (parentStep layers i) gr) (g, r)

/-- The three draws of one iteration of the extra-edge loop: a random layer
index `i ∈ [0, num_layers - 2]`, a random node of layer `i ` and a random
node of layer `i + 1`. -/
def extraDrawI (L : Nat) (r : Rnd) : Nat × Rnd := randint 0 (L - 2) r

def extraDrawA (layers : List (List (Nat × Nat))) (L : Nat) (r : Rnd) :
    (Nat × Nat) × Rnd :=
  choiceL (layers.getD (extraDrawI L r).1 []) (0, 0) (extraDrawI L r).2

def extraDrawB (layers : List (List (Nat × Nat))) (L : Nat) (r : Rnd) :
    (Nat × Nat) × Rnd :=
  choiceL (layers.getD ((extraDrawI L r).1 + 1) []) (0, 0) (extraDrawA layers L r).2

/-- The `while total_edges < num_edges` rejection loop: pick a random
adjacent-layer pair and add the edge when it is new.  The fuel makes the
rejection sampling finite; with an adversarial stream the Python loop can
redraw forever, so the termination claim is settled by the progress theorem
below (whenever `total_edges < num_edges`, an addable pair exists). -/
def extraEdgesLoop (layers : List (List (Nat × Nat))) (L numE : Nat) :
    Nat → UGraph (Nat × Nat) → Rnd → UGraph (Nat × Nat) × Rnd
  | 0, g, r => (g, r)
  | fuel + 1, g, r =>
    if g.edges.length < numE then
      if g.hasEdge (extraDrawA layers L r).1 (extraDrawB layers L r).1 then
        extraEdgesLoop layers L numE fuel g (extraDrawB layers L r).2
      else
        extraEdgesLoop layers L numE fuel
          (g.addEdge (extraDrawA layers L r).1 (extraDrawB layers L r).1)
          (extraDrawB layers L r).2
    else (g, r)

/-- Resolution of the optional `num_layers` argument: when absent, draw
uniformly from {2, 3, 4}. -/
def gsgL (numLayersOpt : Option Nat) (r : Rnd) : Nat × Rnd :=
  match numLayersOpt with
  | some L => (L, r)
  | none => randint 2 4 r

/-- The target edge count draw:
`num_edges = randint((L-1)*min_items, (L-1)*max_items**2)`. -/
def gsgNumE (minI maxI L : Nat) (r : Rnd) : Nat × Rnd :=
  randint ((L - 1) * minI) ((L - 1) * maxI ^ 2) r

/-- The construction downstream of the growth loop: materialize the layers
and nodes, select the categories, add the connectivity edges, then the
extra random edges. -/
def buildFromSizes (L numE fuelE : Nat) (ls : List Nat) (r : Rnd) :
    UGraph (Nat × Nat) × List (List (Nat × Nat)) :=
  ((extraEdgesLoop (mkLayers ls) L numE fuelE
      (addParentEdges (mkLayers ls)
        (addNodesAll (mkLayers ls) (select_categories L r).1)
        (select_categories L r).2).1
      (addParentEdges (mkLayers ls)
        (addNodesAll (mkLayers ls) (select_categories L r).1)
        (select_categories L r).2).2).1,
   mkLayers ls)

/-- `_generate_structure_graph(min_items_per_layer, max_items_per_layer,
num_layers)`.  `fuelE` bounds the rejection loop (see `extraEdgesLoop`);
`none` is fuel exhaustion of the growth loop, which is unreachable with the
fuel bound proved below. -/
def generate_structure_graph (minI maxI : Nat) (numLayersOpt : Option Nat)
    (fuelG fuelE : Nat) (r : Rnd) :
    Option (UGraph (Nat × Nat) × List (List (Nat × Nat))) :=
  match growthLoop maxI
      (gsgNumE minI maxI (gsgL numLayersOpt r).1 (gsgL numLayersOpt r).2).1
      (gsgL numLayersOpt r).1
      ((gsgNumE minI maxI (gsgL numLayersOpt r).1 (gsgL numLayersOpt r).2).2.next).1
      fuelG (List.replicate (gsgL numLayersOpt r).1 minI)
      ((gsgNumE minI maxI (gsgL numLayersOpt r).1 (gsgL numLayersOpt r).2).2.next).2 with
  | none => none
  | some lsr =>
    some (buildFromSizes (gsgL numLayersOpt r).1
      (gsgNumE minI maxI (gsgL numLayersOpt r).1 (gsgL numLayersOpt r).2).1
      fuelE lsr.1 lsr.2)

/-! ## The public entry point `generate_data`

`generate_data` calls `self._generate_structure_graph()` with no arguments.
We model just enough of Python method dispatch to settle its behaviour: the
methods the class defines, the required-parameter count of
`_generate_structure_graph`, and the rules that a call supplying fewer
positional arguments than required raises `TypeError` and that accessing an
undefined attribute raises `AttributeError`. -/

inductive PyError where
  | typeError
  | attributeError
deriving DecidableEq

/-- The methods defined on class `DataGenerator` in the source. -/
def dataGeneratorMethods : List String :=
  ["__init__", "_initialize_categories", "generate_data",
   "_generate_structure_graph", "_select_categories", "_assign_names",
   "_generate_abstract_parameter_graph", "_generate_G_d_nece1",
   "_calculate_op", "_get_node_dependencies", "visualize_structure_graph"]

/-- `_generate_structure_graph(self, min_items_per_layer,
max_items_per_layer, num_layers)`: three parameters besides `self`, none of
which has a default value (`num_layers` is annotated `Optional[int]` but has
no `= None` default). -/
def structureGraphRequiredParams : Nat := 3

/-- Calling a method with fewer positional arguments than required raises
`TypeError` before the body runs. -/
def pyCallArity (required provided : Nat) : Except PyError Unit :=
  if provided < required then .error .typeError else .ok ()

/-- Looking up a method raises `AttributeError` when the class does not
define it. -/
def pyLookup (m : String) : Except PyError Unit :=
  if m ∈ dataGeneratorMethods then .ok () else .error .attributeError

/-- The body of `generate_data`: `self._generate_structure_graph()` with
zero arguments, then `self._generate_dependency_graph(...)`, then
`self._generate_descriptions()`. -/
def generate_data_run : Except PyError Unit := do
  pyCallArity structureGraphRequiredParams 0
  pyLookup "_generate_dependency_graph"
  pyLookup "_generate_descriptions"

/-! ## Concrete instances used by counterexamples and witnesses -/

/-- A two-node dependency chain: one parameter depending on one raw node. -/
def chainGraph : DiGraph String :=
  ⟨[("r", ⟨none, none⟩), ("p", ⟨some 1, none⟩)], [("r", "p")]⟩

/-- A parameter `q` with three raw inputs and a parameter `s` with one. -/
def opExampleGraph : DiGraph String :=
  ⟨[("q", ⟨some 1, none⟩), ("r1", ⟨none, none⟩), ("r2", ⟨none, none⟩),
    ("r3", ⟨none, none⟩), ("s", ⟨some 1, none⟩), ("r4", ⟨none, none⟩)],
   [("r1", "q"), ("r2", "q"), ("r3", "q"), ("r4", "s")]⟩

/-- A small abstract graph with one parameter over one raw input. -/
def agW : DiGraph String :=
  ⟨[("b", ⟨none, none⟩), ("p", ⟨some 1, none⟩)], [("b", "p")]⟩

/-- The subgraph the extractor produces from `agW` at budget 3. -/
def agWres : DiGraph String := (generate_G_d_nece1 agW 3).getD DiGraph.empty

/-- A concrete structure graph: `t` (layer 1) over `a`, `b`, `c` (layer 2)
over `x` (layer 3), with every adjacent pair connected. -/
def sgC : UGraph String :=
  ⟨[("t", ⟨1, "District", "T"⟩), ("a", ⟨2, "Supermarket", "A"⟩),
    ("b", ⟨2, "Supermarket", "B"⟩), ("c", ⟨2, "Supermarket", "C"⟩),
    ("x", ⟨3, "Product", "X"⟩)],
   [("t", "a"), ("t", "b"), ("t", "c"), ("a", "x"), ("b", "x"), ("c", "x")]⟩

def layersC : List (List String) := [["t"], ["a", "b", "c"], ["x"]]

/-- The dependency graph the builder produces from `sgC`. -/
def agB : DiGraph (PNode String) := generate_abstract_parameter_graph sgC layersC

/-- A concrete random stream (constantly 0). -/
def rW : Rnd := ⟨fun _ => 0, 0⟩

/-- The structure graph and layers the builder produces with
`min_items_per_layer = max_items_per_layer = 1` and 2 layers on the
constant-0 stream: two nodes, one connecting edge. -/
def sgW : UGraph (Nat × Nat) × List (List (Nat × Nat)) :=
  (generate_structure_graph 1 1 (some 2) 0 0 rW).getD (⟨[], []⟩, [])

/-- A two-node, zero-edge graph over the layer sizes `[1, 1]`, used to
exhibit the progress property of the extra-edge rejection loop. -/
def sgE : UGraph (Nat × Nat) :=
  ⟨[((1, 1), ⟨1, "", ""⟩), ((2, 1), ⟨2, "", ""⟩)], []⟩

/-! # Theorems

## Budget invariant of the extractor (C1) -/

theorem calculate_op_empty : calculate_op (DiGraph.empty : DiGraph α) = 0 := rfl

theorem tryNodes_op_le (ag : DiGraph α) (n d : Nat) :
    ∀ (l : List (α × AAttrs)) (G : DiGraph α), calculate_op G ≤ n →
      calculate_op (tryNodes ag n d G l).1 ≤ n := by
  intro l
  induction l with
  | nil => intro G h; simpa [tryNodes] using h
  | cons p rest ih =>
    intro G h
    simp only [tryNodes]
    split
    · split
      · next hop => simpa using hop
      · exact ih G h
    · exact ih G h

theorem sweep_op_le (ag : DiGraph α) (n : Nat) :
    ∀ (d : Nat) (G : DiGraph α), calculate_op G ≤ n →
      calculate_op (sweep ag n d G).1 ≤ n := by
  intro d
  induction d with
  | zero => intro G h; simpa [sweep] using h
  | succ d ih =>
    intro G h
    simp only [sweep]
    exact ih _ (tryNodes_op_le ag n (d + 1) ag.nodes G h)

theorem extractLoop_op_le (ag : DiGraph α) (n : Nat) :
    ∀ (fuel : Nat) (G : DiGraph α), calculate_op G ≤ n →
      calculate_op (extractLoop ag n fuel G) ≤ n := by
  intro fuel
  induction fuel with
  | zero => intro G h; simpa [extractLoop] using h
  | succ f ih =>
    intro G h
    simp only [extractLoop]
    split
    · exact ih _ (sweep_op_le ag n _ G h)
    · exact sweep_op_le ag n _ G h

/-- C1: for every abstract dependency graph and every operation budget
`n ≥ 0` (budgets are naturals here), the subgraph returned by
`_generate_G_d_nece1` satisfies `op(result) ≤ n`, where `op` is
`_calculate_op`. -/
theorem C1_extractor_respects_budget (ag : DiGraph α) (n : Nat) (G : DiGraph α)
    (h : generate_G_d_nece1 ag n = some G) : calculate_op G ≤ n := by
  unfold generate_G_d_nece1 at h
  split at h
  · exact absurd h (by simp)
  · rw [Option.some_inj] at h
    subst h
    exact extractLoop_op_le ag n _ DiGraph.empty (by simp [calculate_op_empty])

/-- Witness for C1 at a concrete graph and budget. -/
theorem C1_witness : calculate_op agWres ≤ 3 :=
  C1_extractor_respects_budget agW 3 agWres (by decide)

/-! ## The public entry point (C2) -/

/-- C2: `generate_data` always raises `TypeError` (it calls
`_generate_structure_graph` with no arguments while the method has required
parameters) and the two methods it would call next are not defined on the
class. -/
theorem C2_generate_data_raises :
    generate_data_run = Except.error PyError.typeError ∧
    "_generate_dependency_graph" ∉ dataGeneratorMethods ∧
    "_generate_descriptions" ∉ dataGeneratorMethods :=
  ⟨rfl, by decide, by decide⟩

/-! ## The cost model on concrete graphs (C4) -/

/-- C4 counterexample: the total `op()` of the 2-node chain (one parameter
depending on one raw node) is 2, not 1 as claimed — `_calculate_op` sums
over all nodes, and the raw node also contributes `max(1, 0 - 1) = 1`. -/
theorem C4_counterexample :
    calculate_op chainGraph = 2 ∧ calculate_op chainGraph ≠ 1 := by decide

/-- C4 (amended): a node with in-degree 3 contributes cost 2, a node with
in-degree 1 or 0 contributes cost 1, and the total `op()` of the 2-node
chain is 2 (1 for the parameter plus 1 for the raw node). -/
theorem C4_cost_model_values :
    opExampleGraph.inDegree "q" = 3 ∧ nodeContribution opExampleGraph "q" = 2 ∧
    opExampleGraph.inDegree "s" = 1 ∧ nodeContribution opExampleGraph "s" = 1 ∧
    opExampleGraph.inDegree "r1" = 0 ∧ nodeContribution opExampleGraph "r1" = 1 ∧
    calculate_op chainGraph = 2 := by decide

/-! ## Emptiness characterization of the extractor (C5, C10) -/

theorem foldl_preserve {β σ : Type} (P : σ → Prop) (f : σ → β → σ)
    (hf : ∀ s x, P s → P (f s x)) :
    ∀ (l : List β) (s : σ), P s → P (l.foldl f s) := by
  intro l
  induction l with
  | nil => intro s h; simpa
  | cons x t ih => intro s h; exact ih _ (hf s x h)

theorem hasNode_iff_mem (G : DiGraph α) (v : α) :
    G.hasNode v = true ↔ v ∈ G.nodeIds := by
  simp [DiGraph.hasNode, DiGraph.nodeIds, List.any_eq_true]

theorem addNode_nodeIds (G : DiGraph α) (v : α) (a : AAttrs) :
    (G.addNode v a).nodeIds =
      if G.hasNode v then G.nodeIds else G.nodeIds ++ [v] := by
  unfold DiGraph.addNode DiGraph.nodeIds
  by_cases h : G.hasNode v
  · simp only [if_pos h]
    rw [List.map_map]
    apply List.map_congr_left
    intro p _
    by_cases hpv : p.1 = v <;> simp [hpv]
  · simp [if_neg h]

theorem mem_addNode_nodeIds (G : DiGraph α) (v w : α) (a : AAttrs)
    (h : w ∈ G.nodeIds) : w ∈ (G.addNode v a).nodeIds := by
  rw [addNode_nodeIds]
  split
  · exact h
  · exact List.mem_append_left _ h

theorem self_mem_addNode_nodeIds (G : DiGraph α) (v : α) (a : AAttrs) :
    v ∈ (G.addNode v a).nodeIds := by
  rw [addNode_nodeIds]
  split
  · next h => exact (hasNode_iff_mem G v).mp h
  · exact List.mem_append_right _ (by simp)

theorem mem_ensure_nodeIds (G : DiGraph α) (v w : α) (h : w ∈ G.nodeIds) :
    w ∈ (G.ensure v).nodeIds := by
  unfold DiGraph.ensure
  split
  · exact h
  · simp only [DiGraph.nodeIds, List.map_append]
    exact List.mem_append_left _ h

theorem mem_addEdge_nodeIds (G : DiGraph α) (u v w : α) (h : w ∈ G.nodeIds) :
    w ∈ (G.addEdge u v).nodeIds := by
  unfold DiGraph.addEdge
  split
  · exact mem_ensure_nodeIds _ _ _ (mem_ensure_nodeIds _ _ _ h)
  · exact mem_ensure_nodeIds _ _ _ (mem_ensure_nodeIds _ _ _ h)

theorem mem_addCandidate_nodeIds (ag G : DiGraph α) (v w : α)
    (h : w ∈ G.nodeIds) : w ∈ (addCandidate ag G v).nodeIds := by
  unfold addCandidate
  exact foldl_preserve (fun (g : DiGraph α) => w ∈ g.nodeIds) _
    (fun g d hg => mem_addEdge_nodeIds _ _ _ _ (mem_addNode_nodeIds _ _ _ _ hg))
    _ _ (mem_addNode_nodeIds _ _ _ _ h)

theorem self_mem_addCandidate (ag G : DiGraph α) (v : α) :
    v ∈ (addCandidate ag G v).nodeIds := by
  unfold addCandidate
  exact foldl_preserve (fun (g : DiGraph α) => v ∈ g.nodeIds) _
    (fun g d hg => mem_addEdge_nodeIds _ _ _ _ (mem_addNode_nodeIds _ _ _ _ hg))
    _ _ (self_mem_addNode_nodeIds _ _ _)

theorem mem_tryNodes_nodeIds (ag : DiGraph α) (n d : Nat) :
    ∀ (l : List (α × AAttrs)) (G : DiGraph α) (w : α), w ∈ G.nodeIds →
      w ∈ (tryNodes ag n d G l).1.nodeIds := by
  intro l
  induction l with
  | nil => intro G w h; simpa [tryNodes]
  | cons p rest ih =>
    intro G w h
    simp only [tryNodes]
    split
    · split
      · exact mem_addCandidate_nodeIds ag G p.1 w h
      · exact ih G w h
    · exact ih G w h

theorem mem_sweep_nodeIds (ag : DiGraph α) (n : Nat) :
    ∀ (d : Nat) (G : DiGraph α) (w : α), w ∈ G.nodeIds →
      w ∈ (sweep ag n d G).1.nodeIds := by
  intro d
  induction d with
  | zero => intro G w h; simpa [sweep]
  | succ d ih =>
    intro G w h
    simp only [sweep]
    exact ih _ w (mem_tryNodes_nodeIds ag n (d + 1) ag.nodes G w h)

theorem mem_extractLoop_nodeIds (ag : DiGraph α) (n : Nat) :
    ∀ (fuel : Nat) (G : DiGraph α) (w : α), w ∈ G.nodeIds →
      w ∈ (extractLoop ag n fuel G).nodeIds := by
  intro fuel
  induction fuel with
  | zero => intro G w h; simpa [extractLoop]
  | succ f ih =>
    intro G w h
    simp only [extractLoop]
    split
    · exact ih _ w (mem_sweep_nodeIds ag n _ G w h)
    · exact mem_sweep_nodeIds ag n _ G w h

theorem foldl_max_le_init : ∀ (l : List Nat) (a : Nat), a ≤ l.foldl max a := by
  intro l
  induction l with
  | nil => intro a; simp
  | cons x t ih => intro a; exact le_trans (le_max_left a x) (ih (max a x))

theorem mem_le_foldl_max : ∀ (l : List Nat) (a x : Nat), x ∈ l → x ≤ l.foldl max a := by
  intro l
  induction l with
  | nil => intro a x hx; simp at hx
  | cons y t ih =>
    intro a x hx
    rcases List.mem_cons.mp hx with h | h
    · subst h; exact le_trans (le_max_right a x) (foldl_max_le_init t _)
    · exact ih _ _ h

theorem maxDifficulty_ge (ag : DiGraph α) (p : α × AAttrs) (d : Nat)
    (hp : p ∈ ag.nodes) (hdl : p.2.difficulty_level = some d) :
    d ≤ maxDifficulty ag := by
  apply mem_le_foldl_max
  rw [List.mem_map]
  exact ⟨p, hp, by rw [hdl]; rfl⟩

theorem addableB_iff (ag : DiGraph α) (n : Nat) : addableB ag n = true ↔
    ∃ p ∈ ag.nodes, ∃ d, p.2.difficulty_level = some d ∧ 1 ≤ d ∧
      calculate_op (addCandidate ag DiGraph.empty p.1) ≤ n := by
  rw [addableB, List.any_eq_true]
  constructor
  · rintro ⟨p, hp, hf⟩
    cases hdl : p.2.difficulty_level with
    | none => rw [hdl] at hf; simp at hf
    | some d =>
      rw [hdl] at hf
      simp only [Bool.and_eq_true, decide_eq_true_eq] at hf
      exact ⟨p, hp, d, hdl, hf.1, hf.2⟩
  · rintro ⟨p, hp, d, hdl, h1, h2⟩
    refine ⟨p, hp, ?_⟩
    rw [hdl]
    simp only [Bool.and_eq_true, decide_eq_true_eq]
    exact ⟨h1, h2⟩

theorem addableB_mono (ag : DiGraph α) (n m : Nat) (hnm : n ≤ m)
    (h : addableB ag n = true) : addableB ag m = true := by
  obtain ⟨p, hp, d, hdl, h1, h2⟩ := (addableB_iff ag n).mp h
  exact (addableB_iff ag m).mpr ⟨p, hp, d, hdl, h1, le_trans h2 hnm⟩

theorem calculate_op_pos (G : DiGraph α) (h : G.nodes ≠ []) :
    1 ≤ calculate_op G := by
  unfold calculate_op
  cases hn : G.nodes with
  | nil => exact absurd hn h
  | cons p t =>
    simp only [List.map_cons, List.sum_cons]
    calc 1 ≤ max 1 (G.inDegree p.1 - 1) := le_max_left _ _
    _ ≤ _ := Nat.le_add_right _ _

theorem nodes_ne_nil_of_mem (G : DiGraph α) (v : α) (h : v ∈ G.nodeIds) :
    G.nodes ≠ [] := by
  intro h0
  rw [DiGraph.nodeIds, h0] at h
  simp at h

theorem tryNodes_false (ag : DiGraph α) (n d : Nat) :
    ∀ (l : List (α × AAttrs)) (G : DiGraph α), (tryNodes ag n d G l).2 = false →
      (tryNodes ag n d G l).1 = G ∧
      ∀ p ∈ l, p.2.difficulty_level = some d → ¬ G.hasNode p.1 →
        ¬ calculate_op (addCandidate ag G p.1) ≤ n := by
  intro l
  induction l with
  | nil => intro G _; exact ⟨rfl, by simp⟩
  | cons p rest ih =>
    intro G h
    simp only [tryNodes] at h ⊢
    by_cases h1 : p.2.difficulty_level = some d ∧ ¬ G.hasNode p.1
    · rw [if_pos h1] at h ⊢
      by_cases h2 : calculate_op (addCandidate ag G p.1) ≤ n
      · rw [if_pos h2] at h; simp at h
      · rw [if_neg h2] at h ⊢
        obtain ⟨he, hall⟩ := ih G h
        refine ⟨he, fun q hq hdl hnot => ?_⟩
        rcases List.mem_cons.mp hq with rfl | hq'
        · exact h2
        · exact hall q hq' hdl hnot
    · rw [if_neg h1] at h ⊢
      obtain ⟨he, hall⟩ := ih G h
      refine ⟨he, fun q hq hdl hnot => ?_⟩
      rcases List.mem_cons.mp hq with rfl | hq'
      · exact absurd ⟨hdl, hnot⟩ h1
      · exact hall q hq' hdl hnot

theorem tryNodes_true (ag : DiGraph α) (n d : Nat) :
    ∀ (l : List (α × AAttrs)) (G : DiGraph α), (tryNodes ag n d G l).2 = true →
      ∃ p ∈ l, p.2.difficulty_level = some d ∧ ¬ G.hasNode p.1 ∧
        calculate_op (addCandidate ag G p.1) ≤ n ∧
        (tryNodes ag n d G l).1 = addCandidate ag G p.1 := by
  intro l
  induction l with
  | nil => intro G h; simp [tryNodes] at h
  | cons p rest ih =>
    intro G h
    simp only [tryNodes] at h ⊢
    by_cases h1 : p.2.difficulty_level = some d ∧ ¬ G.hasNode p.1
    · rw [if_pos h1] at h ⊢
      by_cases h2 : calculate_op (addCandidate ag G p.1) ≤ n
      · rw [if_pos h2] at h ⊢
        exact ⟨p, List.mem_cons_self _ _, h1.1, h1.2, h2, rfl⟩
      · rw [if_neg h2] at h ⊢
        obtain ⟨q, hq, hrest⟩ := ih G h
        exact ⟨q, List.mem_cons_of_mem _ hq, hrest⟩
    · rw [if_neg h1] at h ⊢
      obtain ⟨q, hq, hrest⟩ := ih G h
      exact ⟨q, List.mem_cons_of_mem _ hq, hrest⟩

theorem sweep_false (ag : DiGraph α) (n : Nat) :
    ∀ (d : Nat) (G : DiGraph α), (sweep ag n d G).2 = false →
      (sweep ag n d G).1 = G ∧
      ∀ j, 1 ≤ j → j ≤ d → ∀ p ∈ ag.nodes, p.2.difficulty_level = some j →
        ¬ G.hasNode p.1 → ¬ calculate_op (addCandidate ag G p.1) ≤ n := by
  intro d
  induction d with
  | zero =>
    intro G _
    exact ⟨rfl, fun j h1 h2 => absurd (le_trans h1 h2) (by simp)⟩
  | succ d ih =>
    intro G h
    simp only [sweep] at h ⊢
    rw [Bool.or_eq_false_iff] at h
    obtain ⟨h1, h2⟩ := h
    obtain ⟨e1, all1⟩ := tryNodes_false ag n (d + 1) ag.nodes G h1
    rw [e1] at h2 ⊢
    obtain ⟨e2, all2⟩ := ih G h2
    refine ⟨e2, fun j hj1 hj2 p hp hdl hnot => ?_⟩
    rcases Nat.lt_or_ge j (d + 1) with hlt | hge
    · exact all2 j hj1 (Nat.lt_succ_iff.mp hlt) p hp hdl hnot
    · have : j = d + 1 := Nat.le_antisymm hj2 hge
      subst this
      exact all1 p hp hdl hnot

theorem sweep_true_adds (ag : DiGraph α) (n : Nat) :
    ∀ (d : Nat) (G : DiGraph α), (sweep ag n d G).2 = true →
      ∃ v, ¬ G.hasNode v ∧ v ∈ (sweep ag n d G).1.nodeIds := by
  intro d
  induction d with
  | zero => intro G h; simp [sweep] at h
  | succ d ih =>
    intro G h
    simp only [sweep] at h ⊢
    rw [Bool.or_eq_true] at h
    rcases h with h1 | h2
    · obtain ⟨p, _, _, hnot, _, heq⟩ := tryNodes_true ag n (d + 1) ag.nodes G h1
      refine ⟨p.1, hnot, ?_⟩
      apply mem_sweep_nodeIds
      rw [heq]
      exact self_mem_addCandidate ag G p.1
    · obtain ⟨v, hv1, hv2⟩ := ih _ h2
      refine ⟨v, fun hvG => ?_, hv2⟩
      exact hv1 ((hasNode_iff_mem _ v).mpr
        (mem_tryNodes_nodeIds ag n (d + 1) ag.nodes G v ((hasNode_iff_mem G v).mp hvG)))

theorem sweep_true_from_empty (ag : DiGraph α) (n : Nat) :
    ∀ (d : Nat), (sweep ag n d (DiGraph.empty : DiGraph α)).2 = true →
      ∃ p ∈ ag.nodes, ∃ j, p.2.difficulty_level = some j ∧ 1 ≤ j ∧
        calculate_op (addCandidate ag DiGraph.empty p.1) ≤ n := by
  intro d
  induction d with
  | zero => intro h; simp [sweep] at h
  | succ d ih =>
    intro h
    simp only [sweep] at h
    rw [Bool.or_eq_true] at h
    by_cases h1 : (tryNodes ag n (d + 1) (DiGraph.empty : DiGraph α) ag.nodes).2 = true
    · obtain ⟨p, hp, hdl, _, hcost, _⟩ := tryNodes_true ag n (d + 1) ag.nodes _ h1
      exact ⟨p, hp, d + 1, hdl, Nat.succ_le_succ (Nat.zero_le d), hcost⟩
    · rcases h with h | h2
      · exact absurd h h1
      · rw [(tryNodes_false ag n (d + 1) ag.nodes _ (Bool.eq_false_iff.mpr h1)).1] at h2
        exact ih h2

theorem result_empty_iff (ag : DiGraph α) (n : Nat) (G : DiGraph α)
    (h : generate_G_d_nece1 ag n = some G) :
    (G.nodeIds = [] ↔ addableB ag n = false) := by
  unfold generate_G_d_nece1 at h
  split at h
  · exact absurd h (by simp)
  · rw [Option.some_inj] at h
    subst h
    constructor
    · intro hG
      cases hb : addableB ag n with
      | false => rfl
      | true =>
        exfalso
        obtain ⟨p, hp, d, hdl, hd1, hcost⟩ := (addableB_iff ag n).mp hb
        cases hs : (sweep ag n (maxDifficulty ag) (DiGraph.empty : DiGraph α)).2 with
        | true =>
          obtain ⟨v, _, hv2⟩ := sweep_true_adds ag n (maxDifficulty ag) DiGraph.empty hs
          have hvG : v ∈ (extractLoop ag n (ag.nodes.length + 1) DiGraph.empty).nodeIds := by
            simp only [extractLoop, hs, if_true]
            exact mem_extractLoop_nodeIds ag n _ _ v hv2
          rw [hG] at hvG
          simp at hvG
        | false =>
          exact (sweep_false ag n (maxDifficulty ag) DiGraph.empty hs).2 d hd1
            (maxDifficulty_ge ag p d hp hdl) p hp hdl
            (by simp [DiGraph.hasNode, DiGraph.empty]) hcost
    · intro hb
      cases hs : (sweep ag n (maxDifficulty ag) (DiGraph.empty : DiGraph α)).2 with
      | true =>
        exfalso
        obtain ⟨p, hp, j, hdl, hj, hcost⟩ := sweep_true_from_empty ag n (maxDifficulty ag) hs
        rw [(addableB_iff ag n).mpr ⟨p, hp, j, hdl, hj, hcost⟩] at hb
        exact absurd hb (by simp)
      | false =>
        simp only [extractLoop, hs]
        rw [(sweep_false ag n (maxDifficulty ag) DiGraph.empty hs).1]
        rfl

/-- C5 counterexample: on the dependency graph the builder produces from the
concrete structure graph `sgC`, the budget `n = 1` already yields an empty
subgraph (every abstract parameter carries at least one dependency, so the
cheapest non-empty extension costs 2), refuting that every budget `n ≥ 1`
gives a non-empty result. -/
theorem C5_counterexample :
    (1 : Nat) ≥ 1 ∧ (generate_G_d_nece1 agB 1).isSome = true ∧
    resultIds agB 1 = [] := by decide

/-- C5 (amended): the extracted subgraph is empty exactly when no single
node of the abstract graph together with its direct dependencies fits within
the budget; in particular a budget of `n = 0` always yields an empty
subgraph, but budgets `n ≥ 1` can yield an empty subgraph as well (for
builder-produced graphs every abstract node has a dependency, so `n = 1`
does). -/
theorem C5_amended_empty_characterization (ag : DiGraph α) (n : Nat)
    (G : DiGraph α) (h : generate_G_d_nece1 ag n = some G) :
    (G.nodeIds = [] ↔ addableB ag n = false) ∧ (n = 0 → G.nodeIds = []) := by
  refine ⟨result_empty_iff ag n G h, ?_⟩
  rintro rfl
  rw [result_empty_iff ag 0 G h]
  cases hb : addableB ag 0 with
  | false => rfl
  | true =>
    exfalso
    obtain ⟨p, hp, d, _, _, hcost⟩ := (addableB_iff ag 0).mp hb
    have h1 : 1 ≤ calculate_op (addCandidate ag DiGraph.empty p.1) :=
      calculate_op_pos _ (nodes_ne_nil_of_mem _ p.1 (self_mem_addCandidate ag _ p.1))
    exact absurd (le_trans h1 hcost) (by simp)

/-- Witness for the amended C5 at a concrete builder-produced graph and
budget 0. -/
theorem C5_witness :
    (resultIds agB 0 = [] ↔ addableB agB 0 = false) ∧
    ((0 : Nat) = 0 → resultIds agB 0 = []) :=
  C5_amended_empty_characterization agB 0
    ((generate_G_d_nece1 agB 0).getD DiGraph.empty) (by decide)

/-- C10 counterexample: extraction is not monotone in the budget.  On the
builder-produced dependency graph `agB`, with budgets `2 ≤ 5`, the raw node
`x` belongs to the subgraph extracted at budget 2 but not to the subgraph
extracted at budget 5 (the larger budget commits the difficulty-2 parameter
first, and the difficulty-1 parameter that needed `x` is then skipped as
already present, so its dependency `x` is never added). -/
theorem C10_counterexample :
    (2 : Nat) ≤ 5 ∧ PNode.raw "x" ∈ resultIds agB 2 ∧
    PNode.raw "x" ∉ resultIds agB 5 := by decide

/-- C10 (amended): monotonicity holds only for non-emptiness: if the
subgraph extracted with budget `n` is non-empty and `n ≤ m`, the subgraph
extracted with budget `m` is non-empty as well; the node set itself can
shrink. -/
theorem C10_amended_nonempty_monotone (ag : DiGraph α) (n m : Nat)
    (hnm : n ≤ m) (G H : DiGraph α) (hG : generate_G_d_nece1 ag n = some G)
    (hH : generate_G_d_nece1 ag m = some H) (hne : G.nodeIds ≠ []) :
    H.nodeIds ≠ [] := by
  intro hH0
  apply hne
  rw [result_empty_iff ag n G hG]
  cases hb : addableB ag n with
  | false => rfl
  | true =>
    exfalso
    have hm := addableB_mono ag n m hnm hb
    have := (result_empty_iff ag m H hH).mp hH0
    rw [hm] at this
    exact absurd this (by simp)

/-- Witness for the amended C10 at a concrete builder-produced graph. -/
theorem C10_witness :
    ((generate_G_d_nece1 agB 5).getD DiGraph.empty).nodeIds ≠ [] :=
  C10_amended_nonempty_monotone agB 2 5 (by decide)
    ((generate_G_d_nece1 agB 2).getD DiGraph.empty)
    ((generate_G_d_nece1 agB 5).getD DiGraph.empty)
    (by decide) (by decide) (by decide)

/-! ## Invariants of the abstract parameter graph builder (C3, C6) -/

theorem foldl_preserve_mem {β σ : Type} (P : σ → Prop) (f : σ → β → σ) :
    ∀ (l : List β), (∀ s x, x ∈ l → P s → P (f s x)) →
      ∀ s, P s → P (l.foldl f s) := by
  intro l
  induction l with
  | nil => intro _ s h; simpa
  | cons x t ih =>
    intro hf s h
    exact ih (fun s y hy => hf s y (List.mem_cons_of_mem x hy)) _
      (hf s x (List.mem_cons_self x t) h)

theorem ensure_of_hasNode (G : DiGraph α) (v : α) (h : G.hasNode v = true) :
    G.ensure v = G := by
  unfold DiGraph.ensure
  rw [if_pos h]

theorem addNode_edges (G : DiGraph α) (v : α) (a : AAttrs) :
    (G.addNode v a).edges = G.edges := by
  unfold DiGraph.addNode
  split <;> rfl

theorem addEdge_present (G : DiGraph α) (u v : α)
    (hu : G.hasNode u = true) (hv : G.hasNode v = true) :
    (G.addEdge u v).nodes = G.nodes ∧
    ∀ e ∈ (G.addEdge u v).edges, e ∈ G.edges ∨ e = (u, v) := by
  unfold DiGraph.addEdge
  rw [ensure_of_hasNode G u hu, ensure_of_hasNode G v hv]
  split
  · exact ⟨rfl, fun e he => Or.inl he⟩
  · refine ⟨rfl, fun e he => ?_⟩
    rcases List.mem_append.mp he with h | h
    · exact Or.inl h
    · simp only [List.mem_singleton] at h
      exact Or.inr h

theorem hasNode_addNode_self (G : DiGraph α) (v : α) (a : AAttrs) :
    (G.addNode v a).hasNode v = true :=
  (hasNode_iff_mem _ v).mpr (self_mem_addNode_nodeIds G v a)

theorem hasNode_addNode_mono (G : DiGraph α) (v w : α) (a : AAttrs)
    (h : G.hasNode w = true) : (G.addNode v a).hasNode w = true :=
  (hasNode_iff_mem _ w).mpr (mem_addNode_nodeIds G v w a ((hasNode_iff_mem G w).mp h))

theorem hasNode_addEdge_mono (G : DiGraph α) (u v w : α)
    (h : G.hasNode w = true) : (G.addEdge u v).hasNode w = true :=
  (hasNode_iff_mem _ w).mpr (mem_addEdge_nodeIds G u v w ((hasNode_iff_mem G w).mp h))

theorem pinned_addNode {ι : Type} [DecidableEq ι] [Inhabited ι]
    (sg : UGraph ι) (layers : List (List ι)) (G : DiGraph (PNode ι)) (v : PNode ι)
    (hG : ∀ q ∈ G.nodes, q.2 = pinnedAttrs sg layers q.1) :
    ∀ q ∈ (G.addNode v (pinnedAttrs sg layers v)).nodes,
      q.2 = pinnedAttrs sg layers q.1 := by
  intro q hq
  unfold DiGraph.addNode at hq
  split at hq
  · rw [List.mem_map] at hq
    obtain ⟨p, hp, heq⟩ := hq
    by_cases hpv : p.1 = v
    · rw [if_pos hpv] at heq
      rw [← heq]
    · rw [if_neg hpv] at heq
      rw [← heq]
      exact hG p hp
  · rcases List.mem_append.mp hq with h | h
    · exact hG q h
    · simp only [List.mem_singleton] at h
      rw [h]

theorem attrOf_of_pinned {ι : Type} [DecidableEq ι] [Inhabited ι]
    (sg : UGraph ι) (layers : List (List ι)) (G : DiGraph (PNode ι))
    (hG : ∀ q ∈ G.nodes, q.2 = pinnedAttrs sg layers q.1) (v : PNode ι)
    (hv : G.hasNode v = true) :
    G.attrOf v = some (pinnedAttrs sg layers v) := by
  unfold DiGraph.attrOf
  cases hf : G.nodes.find? (fun p => decide (p.1 = v)) with
  | none =>
    exfalso
    rw [DiGraph.hasNode, List.any_eq_true] at hv
    obtain ⟨p, hp, hdec⟩ := hv
    exact (List.find?_eq_none.mp hf p hp) hdec
  | some q =>
    have hqmem := List.mem_of_find?_eq_some hf
    have hqv : q.1 = v := by
      have hp := List.find?_some hf
      simpa using hp
    simp only [Option.map_some']
    rw [hG q hqmem, hqv]

theorem amapGet_prop {ι : Type} [DecidableEq ι] (P : ι → PNode ι → Prop)
    (m : List (ι × List (PNode ι))) (hm : ∀ q ∈ m, ∀ aa ∈ q.2, P q.1 aa) (v : ι) :
    ∀ aa ∈ amapGet m v, P v aa := by
  intro aa ha
  unfold amapGet at ha
  cases hf : m.find? (fun q => decide (q.1 = v)) with
  | none => rw [hf] at ha; simp at ha
  | some q =>
    rw [hf] at ha
    simp only [Option.map_some', Option.getD_some] at ha
    have hqm := List.mem_of_find?_eq_some hf
    have hqv : q.1 = v := by
      have hp := List.find?_some hf
      simpa using hp
    rw [← hqv]
    exact hm q hqm aa ha

theorem amapAppend_prop {ι : Type} [DecidableEq ι] (P : ι → PNode ι → Prop)
    (m : List (ι × List (PNode ι))) (v : ι) (a : PNode ι)
    (hm : ∀ q ∈ m, ∀ aa ∈ q.2, P q.1 aa) (ha : P v a) :
    ∀ q ∈ amapAppend m v a, ∀ aa ∈ q.2, P q.1 aa := by
  intro q hq aa haa
  unfold amapAppend at hq
  split at hq
  · rw [List.mem_map] at hq
    obtain ⟨p, hp, heq⟩ := hq
    by_cases hpv : p.1 = v
    · rw [if_pos hpv] at heq
      rw [← heq] at haa ⊢
      rcases List.mem_append.mp haa with h | h
      · exact hm p hp aa h
      · simp only [List.mem_singleton] at h
        rw [h, hpv]
        exact ha
    · rw [if_neg hpv] at heq
      rw [← heq] at haa ⊢
      exact hm p hp aa haa
  · rcases List.mem_append.mp hq with h | h
    · exact hm q h aa haa
    · rw [List.mem_singleton] at h
      rw [h] at haa ⊢
      simp only [List.mem_singleton] at haa
      rw [haa]
      exact ha

theorem processAA_inv {ι : Type} [DecidableEq ι] [Inhabited ι]
    (sg : UGraph ι) (layers : List (List ι)) (hcat : CatOk sg layers)
    (i : Nat) (node : ι) (st : AbsState ι) (aa : PNode ι) (w : ι)
    (haaeq : aa = PNode.abs w (i + 2) (catAt sg layers (i + 2)))
    (hi2 : i + 2 < layers.length)
    (haamem : st.ga.hasNode aa = true)
    (hinv : AbsInv sg layers st) :
    AbsInv sg layers (processAA i node st aa) ∧
    (processAA i node st aa).amap = st.amap ∧
    ∀ x, st.ga.hasNode x = true → (processAA i node st aa).ga.hasNode x = true := by
  have hattr : st.ga.attrOf aa = some (pinnedAttrs sg layers aa) :=
    attrOf_of_pinned sg layers st.ga hinv.1 aa haamem
  have hpin : pinnedAttrs sg layers aa = ⟨some 1, some (catAt sg layers (i + 2))⟩ := by
    rw [haaeq]
    simp [pinnedAttrs]
  have heq : processAA i node st aa =
      ⟨(st.ga.addNode (PNode.abs node (i + 1) (catAt sg layers (i + 2)))
          ⟨some 2, some (catAt sg layers (i + 2))⟩).addEdge aa
        (PNode.abs node (i + 1) (catAt sg layers (i + 2))), st.amap⟩ := by
    unfold processAA
    rw [hattr]
    simp [hpin]
  have hcidpin : (⟨some 2, some (catAt sg layers (i + 2))⟩ : AAttrs) =
      pinnedAttrs sg layers (PNode.abs node (i + 1) (catAt sg layers (i + 2))) := by
    have hne : catAt sg layers (i + 2) ≠ catAt sg layers (i + 1) :=
      fun hh => (hcat i (by omega) hi2) hh.symm
    simp [pinnedAttrs, if_neg hne]
  rw [heq]
  obtain ⟨hA, hB, hC⟩ := hinv
  have hG1A : ∀ q ∈ (st.ga.addNode (PNode.abs node (i + 1) (catAt sg layers (i + 2)))
      ⟨some 2, some (catAt sg layers (i + 2))⟩).nodes,
      q.2 = pinnedAttrs sg layers q.1 := by
    rw [hcidpin]
    exact pinned_addNode sg layers st.ga _ hA
  have hcidmem : (st.ga.addNode (PNode.abs node (i + 1) (catAt sg layers (i + 2)))
      ⟨some 2, some (catAt sg layers (i + 2))⟩).hasNode
      (PNode.abs node (i + 1) (catAt sg layers (i + 2))) = true :=
    hasNode_addNode_self _ _ _
  have haamem1 : (st.ga.addNode (PNode.abs node (i + 1) (catAt sg layers (i + 2)))
      ⟨some 2, some (catAt sg layers (i + 2))⟩).hasNode aa = true :=
    hasNode_addNode_mono _ _ _ _ haamem
  obtain ⟨hnodes, hedges⟩ := addEdge_present _ aa
    (PNode.abs node (i + 1) (catAt sg layers (i + 2))) haamem1 hcidmem
  refine ⟨⟨?_, ?_, ?_⟩, rfl, ?_⟩
  · intro q hq
    rw [hnodes] at hq
    exact hG1A q hq
  · intro q hq bb hbb
    obtain ⟨t, h1, h2, h3, h4⟩ := hB q hq bb hbb
    exact ⟨t, h1, h2, h3, hasNode_addEdge_mono _ _ _ _ (hasNode_addNode_mono _ _ _ _ h4)⟩
  · intro e he
    rcases hedges e he with h | h
    · rw [addNode_edges] at h
      exact hC e h
    · rw [h]
      have r1 : rankOf sg layers aa = 1 := by
        rw [rankOf, hpin]
        rfl
      have r2 : rankOf sg layers (PNode.abs node (i + 1) (catAt sg layers (i + 2))) = 2 := by
        rw [rankOf, ← hcidpin]
        rfl
      simp only [r1, r2]
      omega
  · intro x hx
    exact hasNode_addEdge_mono _ _ _ _ (hasNode_addNode_mono _ _ _ _ hx)

theorem processNei_inv {ι : Type} [DecidableEq ι] [Inhabited ι]
    (sg : UGraph ι) (layers : List (List ι)) (hcat : CatOk sg layers)
    (i : Nat) (node : ι) (st2 : AbsState ι) (nei : ι)
    (hnei : (attrOfS sg nei).layer = i + 2)
    (h : AbsInv sg layers st2 ∧
      st2.ga.hasNode (PNode.abs node (i + 1) (catAt sg layers (i + 1))) = true) :
    AbsInv sg layers
      (processNei i node (PNode.abs node (i + 1) (catAt sg layers (i + 1))) sg st2 nei) ∧
    (processNei i node (PNode.abs node (i + 1) (catAt sg layers (i + 1))) sg st2 nei).ga.hasNode
      (PNode.abs node (i + 1) (catAt sg layers (i + 1))) = true := by
  obtain ⟨hinv, hpid⟩ := h
  unfold processNei
  have hrawpin : (⟨none, some (attrOfS sg nei).category⟩ : AAttrs) =
      pinnedAttrs sg layers (PNode.raw nei) := rfl
  have hrawmem : (st2.ga.addNode (PNode.raw nei)
      ⟨none, some (attrOfS sg nei).category⟩).hasNode (PNode.raw nei) = true :=
    hasNode_addNode_self _ _ _
  have hpid1 : (st2.ga.addNode (PNode.raw nei)
      ⟨none, some (attrOfS sg nei).category⟩).hasNode
      (PNode.abs node (i + 1) (catAt sg layers (i + 1))) = true :=
    hasNode_addNode_mono _ _ _ _ hpid
  obtain ⟨hnodes, hedges⟩ := addEdge_present _ (PNode.raw nei)
    (PNode.abs node (i + 1) (catAt sg layers (i + 1))) hrawmem hpid1
  have hbase : AbsInv sg layers
      ⟨(st2.ga.addNode (PNode.raw nei) ⟨none, some (attrOfS sg nei).category⟩).addEdge
        (PNode.raw nei) (PNode.abs node (i + 1) (catAt sg layers (i + 1))), st2.amap⟩ ∧
      ((st2.ga.addNode (PNode.raw nei) ⟨none, some (attrOfS sg nei).category⟩).addEdge
        (PNode.raw nei) (PNode.abs node (i + 1) (catAt sg layers (i + 1)))).hasNode
        (PNode.abs node (i + 1) (catAt sg layers (i + 1))) = true ∧
      (⟨(st2.ga.addNode (PNode.raw nei) ⟨none, some (attrOfS sg nei).category⟩).addEdge
        (PNode.raw nei) (PNode.abs node (i + 1) (catAt sg layers (i + 1))),
        st2.amap⟩ : AbsState ι).amap = st2.amap := by
    obtain ⟨hA, hB, hC⟩ := hinv
    refine ⟨⟨?_, ?_, ?_⟩, hasNode_addEdge_mono _ _ _ _ hpid1, rfl⟩
    · intro q hq
      rw [hnodes] at hq
      rw [hrawpin] at hq
      exact pinned_addNode sg layers st2.ga _ hA q hq
    · intro q hq bb hbb
      obtain ⟨t, h1, h2, h3, h4⟩ := hB q hq bb hbb
      exact ⟨t, h1, h2, h3,
        hasNode_addEdge_mono _ _ _ _ (hasNode_addNode_mono _ _ _ _ h4)⟩
    · intro e he
      rcases hedges e he with hh | hh
      · rw [addNode_edges] at hh
        exact hC e hh
      · rw [hh]
        have r2 : rankOf sg layers (PNode.abs node (i + 1) (catAt sg layers (i + 1))) = 1 := by
          simp [rankOf, pinnedAttrs]
        simp only [r2]
        simp [rankOf, pinnedAttrs]
  refine (foldl_preserve_mem
    (fun st3 => AbsInv sg layers st3 ∧
      st3.ga.hasNode (PNode.abs node (i + 1) (catAt sg layers (i + 1))) = true ∧
      st3.amap = st2.amap)
    (processAA i node) (amapGet st2.amap nei) ?_ _ hbase).imp id And.left
  intro st3 aa haaIn hP
  obtain ⟨hinv3, hpid3, hamap3⟩ := hP
  have haaIn3 : aa ∈ amapGet st3.amap nei := by rw [hamap3]; exact haaIn
  have haaProp := amapGet_prop
    (fun w bb => ∃ t, bb = PNode.abs w t (catAt sg layers t) ∧
      (attrOfS sg w).layer = t ∧ t < layers.length ∧ st3.ga.hasNode bb = true)
    st3.amap hinv3.2.1 nei aa haaIn3
  obtain ⟨t, h1, h2, h3, h4⟩ := haaProp
  have ht : t = i + 2 := by rw [hnei] at h2; omega
  subst ht
  obtain ⟨hinv4, hamap4, hmono4⟩ :=
    processAA_inv sg layers hcat i node st3 aa nei h1 h3 h4 hinv3
  exact ⟨hinv4, hmono4 _ hpid3, by rw [hamap4, hamap3]⟩

theorem processNode_inv {ι : Type} [DecidableEq ι] [Inhabited ι]
    (sg : UGraph ι) (layers : List (List ι))
    (hattr : LayerAttrOk sg layers) (hcat : CatOk sg layers)
    (i : Nat) (hiL : i + 1 < layers.length)
    (st : AbsState ι) (node : ι) (hnode : node ∈ layers.getD i [])
    (hinv : AbsInv sg layers st) :
    AbsInv sg layers (processNode sg layers i st node) := by
  unfold processNode
  split
  · exact hinv
  · obtain ⟨hA, hB, hC⟩ := hinv
    have hpidpin : (⟨some 1, some (catAt sg layers (i + 1))⟩ : AAttrs) =
        pinnedAttrs sg layers (PNode.abs node (i + 1) (catAt sg layers (i + 1))) := by
      simp [pinnedAttrs]
    have hbase : AbsInv sg layers
        ⟨st.ga.addNode (PNode.abs node (i + 1) (catAt sg layers (i + 1)))
           ⟨some 1, some (catAt sg layers (i + 1))⟩,
         amapAppend st.amap node (PNode.abs node (i + 1) (catAt sg layers (i + 1)))⟩ ∧
        (st.ga.addNode (PNode.abs node (i + 1) (catAt sg layers (i + 1)))
           ⟨some 1, some (catAt sg layers (i + 1))⟩).hasNode
          (PNode.abs node (i + 1) (catAt sg layers (i + 1))) = true := by
      refine ⟨⟨?_, ?_, ?_⟩, hasNode_addNode_self _ _ _⟩
      · rw [hpidpin]
        exact pinned_addNode sg layers st.ga _ hA
      · apply amapAppend_prop
          (fun w bb => ∃ t, bb = PNode.abs w t (catAt sg layers t) ∧
            (attrOfS sg w).layer = t ∧ t < layers.length ∧
            (st.ga.addNode (PNode.abs node (i + 1) (catAt sg layers (i + 1)))
              ⟨some 1, some (catAt sg layers (i + 1))⟩).hasNode bb = true)
        · intro q hq bb hbb
          obtain ⟨t, h1, h2, h3, h4⟩ := hB q hq bb hbb
          exact ⟨t, h1, h2, h3, hasNode_addNode_mono _ _ _ _ h4⟩
        · exact ⟨i + 1, rfl, hattr i (by omega) node hnode, hiL,
            hasNode_addNode_self _ _ _⟩
      · intro e he
        rw [addNode_edges] at he
        exact hC e he
    refine (foldl_preserve_mem
      (fun st2 => AbsInv sg layers st2 ∧
        st2.ga.hasNode (PNode.abs node (i + 1) (catAt sg layers (i + 1))) = true)
      (processNei i node (PNode.abs node (i + 1) (catAt sg layers (i + 1))) sg)
      (nbrsOf sg i node) ?_ _ hbase).1
    intro st2 nei hneiIn hP
    have hnei : (attrOfS sg nei).layer = i + 2 := by
      have hh := (List.mem_filter.mp hneiIn).2
      simpa using hh
    exact processNei_inv sg layers hcat i node st2 nei hnei hP

theorem absBuilder_state_inv {ι : Type} [DecidableEq ι] [Inhabited ι]
    (sg : UGraph ι) (layers : List (List ι))
    (hattr : LayerAttrOk sg layers) (hcat : CatOk sg layers) :
    AbsInv sg layers
      ((List.range (layers.length - 1)).reverse.foldl
        (fun st i => (layers.getD i []).foldl (processNode sg layers i) st)
        ⟨DiGraph.empty, []⟩) := by
  apply foldl_preserve_mem (AbsInv sg layers)
    (fun st i => (layers.getD i []).foldl (processNode sg layers i) st)
    ((List.range (layers.length - 1)).reverse) ?_ _ ?_
  · intro st i hi hinv
    have hiL : i + 1 < layers.length := by
      rw [List.mem_reverse, List.mem_range] at hi
      omega
    apply foldl_preserve_mem (AbsInv sg layers) (processNode sg layers i)
      (layers.getD i []) ?_ _ hinv
    intro st2 node hnode hinv2
    exact processNode_inv sg layers hattr hcat i hiL st2 node hnode hinv2
  · refine ⟨?_, ?_, ?_⟩
    · intro q hq
      simp [DiGraph.empty] at hq
    · intro q hq
      simp at hq
    · intro e he
      simp [DiGraph.empty] at he

/-- C3: for every structure graph and layer list with consistent layer
attributes and distinct adjacent categories — regardless of the number of
layers — every node of the dependency graph built by
`_generate_abstract_parameter_graph` that carries a difficulty level carries
1 or 2: only difficulty-1 parameters are recorded in `abstract_nodes`, so
composed parameters are always built from a difficulty-1 child and no
parameter of difficulty 3 or more is ever created. -/
theorem C3_difficulty_one_or_two {ι : Type} [DecidableEq ι] [Inhabited ι]
    (sg : UGraph ι) (layers : List (List ι))
    (hattr : LayerAttrOk sg layers) (hcat : CatOk sg layers) :
    ∀ q ∈ (generate_abstract_parameter_graph sg layers).nodes, ∀ d,
      q.2.difficulty_level = some d → d = 1 ∨ d = 2 := by
  intro q hq d hd
  have hA := (absBuilder_state_inv sg layers hattr hcat).1 q hq
  rw [hA] at hd
  cases hq1 : q.1 with
  | raw v =>
    rw [hq1] at hd
    simp [pinnedAttrs] at hd
  | abs nd t c =>
    rw [hq1] at hd
    simp only [pinnedAttrs] at hd
    by_cases hc : c = catAt sg layers t
    · rw [if_pos hc] at hd
      exact Or.inl (Option.some.inj hd).symm
    · rw [if_neg hc] at hd
      exact Or.inr (Option.some.inj hd).symm

/-- Witness for C3: the composed parameter of `sgC` has difficulty 2, which
the theorem pins to the set {1, 2}. -/
theorem C3_witness : (2 : Nat) = 1 ∨ (2 : Nat) = 2 :=
  C3_difficulty_one_or_two sgC layersC (by unfold LayerAttrOk; decide)
    (by unfold CatOk; decide)
    (PNode.abs "t" 1 "Product", ⟨some 2, some "Product"⟩) (by decide) 2 rfl

theorem reach_rank_lt (G : DiGraph α) (f : α → Nat)
    (h : ∀ e ∈ G.edges, f e.1 < f e.2) :
    ∀ u v, Reach G u v → f u < f v := by
  intro u v hr
  induction hr with
  | step u v he => exact h (u, v) he
  | trans u v w he _ ih => exact lt_trans (h (u, v) he) ih

theorem acyclic_of_rank (G : DiGraph α) (f : α → Nat)
    (h : ∀ e ∈ G.edges, f e.1 < f e.2) : Acyclic G :=
  fun v hv => lt_irrefl _ (reach_rank_lt G f h v v hv)

/-- C6: the dependency graph returned by
`_generate_abstract_parameter_graph` is acyclic, for every structure graph
and layer list with consistent layer attributes and distinct adjacent
categories (both guaranteed by the structure-graph builder): every edge goes
from a raw node to a difficulty-1 parameter or from a difficulty-1 parameter
to a difficulty-2 parameter, so the rank raw < difficulty strictly increases
along every edge. -/
theorem C6_dependency_graph_acyclic {ι : Type} [DecidableEq ι] [Inhabited ι]
    (sg : UGraph ι) (layers : List (List ι))
    (hattr : LayerAttrOk sg layers) (hcat : CatOk sg layers) :
    Acyclic (generate_abstract_parameter_graph sg layers) :=
  acyclic_of_rank _ (rankOf sg layers)
    (absBuilder_state_inv sg layers hattr hcat).2.2

/-- Witness for C6 at the concrete structure graph `sgC`. -/
theorem C6_witness : Acyclic (generate_abstract_parameter_graph sgC layersC) :=
  C6_dependency_graph_acyclic sgC layersC (by unfold LayerAttrOk; decide)
    (by unfold CatOk; decide)

/-! ## Basic lemmas on the undirected graph operations (C7, C8, C9) -/

theorem uHasNode_iff_mem (g : UGraph ι) (v : ι) :
    g.hasNode v = true ↔ v ∈ g.nodeIds := by
  simp [UGraph.hasNode, UGraph.nodeIds, List.any_eq_true]

theorem addNodeU_nodeIds (g : UGraph ι) (v : ι) (a : SNode) :
    (g.addNode v a).nodeIds =
      if g.hasNode v then g.nodeIds else g.nodeIds ++ [v] := by
  unfold UGraph.addNode UGraph.nodeIds
  by_cases h : g.hasNode v
  · simp only [if_pos h]
    rw [List.map_map]
    apply List.map_congr_left
    intro p _
    by_cases hpv : p.1 = v <;> simp [hpv]
  · simp [if_neg h]

theorem mem_addNodeU_nodeIds (g : UGraph ι) (v w : ι) (a : SNode)
    (h : w ∈ g.nodeIds) : w ∈ (g.addNode v a).nodeIds := by
  rw [addNodeU_nodeIds]
  split
  · exact h
  · exact List.mem_append_left _ h

theorem self_mem_addNodeU_nodeIds (g : UGraph ι) (v : ι) (a : SNode) :
    v ∈ (g.addNode v a).nodeIds := by
  rw [addNodeU_nodeIds]
  split
  · next h => exact (uHasNode_iff_mem g v).mp h
  · exact List.mem_append_right _ (by simp)

theorem hasNodeU_addNode_self (g : UGraph ι) (v : ι) (a : SNode) :
    (g.addNode v a).hasNode v = true :=
  (uHasNode_iff_mem _ v).mpr (self_mem_addNodeU_nodeIds g v a)

theorem hasNodeU_addNode_mono (g : UGraph ι) (v w : ι) (a : SNode)
    (h : g.hasNode w = true) : (g.addNode v a).hasNode w = true :=
  (uHasNode_iff_mem _ w).mpr (mem_addNodeU_nodeIds g v w a ((uHasNode_iff_mem g w).mp h))

theorem addNodeU_edges (g : UGraph ι) (v : ι) (a : SNode) :
    (g.addNode v a).edges = g.edges := by
  unfold UGraph.addNode
  split <;> rfl

theorem ensureU_of_hasNode (g : UGraph ι) (v : ι) (h : g.hasNode v = true) :
    g.ensure v = g := by
  unfold UGraph.ensure
  rw [if_pos h]

theorem addEdgeU_present (g : UGraph ι) (a b : ι)
    (ha : g.hasNode a = true) (hb : g.hasNode b = true) :
    (g.addEdge a b).nodes = g.nodes ∧
    (g.addEdge a b).edges =
      (if g.hasEdge a b then g.edges else g.edges ++ [(a, b)]) := by
  unfold UGraph.addEdge
  rw [ensureU_of_hasNode g a ha, ensureU_of_hasNode g b hb]
  split
  · exact ⟨rfl, rfl⟩
  · exact ⟨rfl, rfl⟩

theorem hasEdgeU_append (g : UGraph ι) (a b : ι) (ext : List (ι × ι))
    (gext : UGraph ι) (hedges : gext.edges = g.edges ++ ext)
    (h : g.hasEdge a b = true) : gext.hasEdge a b = true := by
  unfold UGraph.hasEdge at h ⊢
  rw [hedges, List.any_eq_true] at *
  obtain ⟨e, he, hp⟩ := h
  exact ⟨e, List.mem_append_left _ he, hp⟩

theorem hasEdgeU_addEdge_self (g : UGraph ι) (a b : ι)
    (ha : g.hasNode a = true) (hb : g.hasNode b = true) :
    (g.addEdge a b).hasEdge a b = true := by
  obtain ⟨_, hedges⟩ := addEdgeU_present g a b ha hb
  by_cases h : g.hasEdge a b
  · rw [if_pos h] at hedges
    exact hasEdgeU_append g a b [] _ (by rw [hedges, List.append_nil]) h
  · rw [if_neg h] at hedges
    unfold UGraph.hasEdge
    rw [hedges, List.any_eq_true]
    exact ⟨(a, b), List.mem_append_right _ (by simp), by simp⟩

theorem uPinned_addNode (g : UGraph ι)
    (pin : ι → SNode) (v : ι) (a : SNode) (hva : a = pin v)
    (hg : ∀ q ∈ g.nodes, q.2 = pin q.1) :
    ∀ q ∈ (g.addNode v a).nodes, q.2 = pin q.1 := by
  intro q hq
  unfold UGraph.addNode at hq
  split at hq
  · rw [List.mem_map] at hq
    obtain ⟨p, hp, heq⟩ := hq
    by_cases hpv : p.1 = v
    · rw [if_pos hpv] at heq
      rw [← heq]
      exact hva
    · rw [if_neg hpv] at heq
      rw [← heq]
      exact hg p hp
  · rcases List.mem_append.mp hq with h | h
    · exact hg q h
    · simp only [List.mem_singleton] at h
      rw [h]
      exact hva

theorem attrOfS_of_pinned (g : UGraph ι) (pin : ι → SNode)
    (hg : ∀ q ∈ g.nodes, q.2 = pin q.1) (v : ι) (hv : g.hasNode v = true) :
    attrOfS g v = pin v := by
  unfold attrOfS
  cases hf : g.nodes.find? (fun p => decide (p.1 = v)) with
  | none =>
    exfalso
    rw [UGraph.hasNode, List.any_eq_true] at hv
    obtain ⟨p, hp, hdec⟩ := hv
    exact (List.find?_eq_none.mp hf p hp) hdec
  | some q =>
    have hqmem := List.mem_of_find?_eq_some hf
    have hqv : q.1 = v := by
      have hp := List.find?_some hf
      simpa using hp
    simp only [Option.map_some', Option.getD_some]
    rw [hg q hqmem, hqv]

theorem attrOfS_congr (g g' : UGraph ι) (h : g.nodes = g'.nodes) (v : ι) :
    attrOfS g v = attrOfS g' v := by
  unfold attrOfS
  rw [h]

/-! ## Facts about the generated layers and node materialization -/

theorem mkLayers_length (ls : List Nat) : (mkLayers ls).length = ls.length := by
  simp [mkLayers]

theorem mkLayers_getD (ls : List Nat) (i : Nat) (h : i < ls.length) :
    (mkLayers ls).getD i [] =
      (List.range (ls.getD i 0)).map (fun j => (i + 1, j + 1)) := by
  unfold mkLayers
  rw [List.getD_eq_getElem _ _ (by simpa using h)]
  simp

theorem mkLayers_getD_beyond (ls : List Nat) (i : Nat) (h : ls.length ≤ i) :
    (mkLayers ls).getD i [] = [] := by
  apply List.getD_eq_default
  simpa [mkLayers]

theorem mem_mkLayers (ls : List Nat) (i : Nat) (v : Nat × Nat)
    (hv : v ∈ (mkLayers ls).getD i []) :
    i < ls.length ∧ ∃ j < ls.getD i 0, v = (i + 1, j + 1) := by
  by_cases h : i < ls.length
  · rw [mkLayers_getD ls i h] at hv
    simp only [List.mem_map, List.mem_range] at hv
    obtain ⟨j, hj, hv⟩ := hv
    exact ⟨h, j, hj, hv.symm⟩
  · rw [mkLayers_getD_beyond ls i (le_of_not_lt h)] at hv
    simp at hv

theorem mem_mkLayers_fst (ls : List Nat) (i : Nat) (v : Nat × Nat)
    (hv : v ∈ (mkLayers ls).getD i []) : v.1 = i + 1 := by
  obtain ⟨_, j, _, hv⟩ := mem_mkLayers ls i v hv
  rw [hv]

theorem mkLayers_getD_length (ls : List Nat) (i : Nat) (h : i < ls.length) :
    ((mkLayers ls).getD i []).length = ls.getD i 0 := by
  rw [mkLayers_getD ls i h]
  simp

theorem mkLayers_getD_nodup (ls : List Nat) (i : Nat) :
    ((mkLayers ls).getD i []).Nodup := by
  by_cases h : i < ls.length
  · rw [mkLayers_getD ls i h]
    exact (List.nodup_range _).map (fun a b hab => by simpa using hab)
  · rw [mkLayers_getD_beyond ls i (le_of_not_lt h)]
    exact List.nodup_nil

theorem mkLayers_ne_nil (ls : List Nat) (i : Nat) (h : i < ls.length)
    (hpos : 1 ≤ ls.getD i 0) : (mkLayers ls).getD i [] ≠ [] := by
  intro hc
  have hl := mkLayers_getD_length ls i h
  rw [hc] at hl
  simp only [List.length_nil] at hl
  omega

theorem foldl_hasNode_mono {γ : Type} (f : UGraph ι → γ → UGraph ι)
    (hmono : ∀ g x w, g.hasNode w = true → (f g x).hasNode w = true) :
    ∀ (l : List γ) (g : UGraph ι) (w : ι), g.hasNode w = true →
      (l.foldl f g).hasNode w = true := by
  intro l
  induction l with
  | nil => intro g w h; simpa
  | cons x t ih => intro g w h; exact ih _ w (hmono g x w h)

theorem addNodesAll_edges (layers : List (List (Nat × Nat))) (cats : List String) :
    (addNodesAll layers cats).edges = [] := by
  unfold addNodesAll
  have hout : ∀ (l : List Nat) (g : UGraph (Nat × Nat)),
      (l.foldl (fun g i => (layers.getD i []).foldl
        (fun g v => g.addNode v ⟨i + 1, cats.getD i "", ""⟩) g) g).edges = g.edges := by
    intro l
    induction l with
    | nil => intro g; rfl
    | cons x t ih =>
      intro g
      rw [List.foldl_cons, ih]
      have hin : ∀ (m : List (Nat × Nat)) (g2 : UGraph (Nat × Nat)),
          (m.foldl (fun g v => g.addNode v ⟨x + 1, cats.getD x "", ""⟩) g2).edges =
            g2.edges := by
        intro m
        induction m with
        | nil => intro g2; rfl
        | cons y s ih2 => intro g2; rw [List.foldl_cons, ih2, addNodeU_edges]
      exact hin _ g
  exact hout _ _

theorem addNodesAll_pinned (layers : List (List (Nat × Nat))) (cats : List String)
    (hfst : ∀ i, ∀ v ∈ layers.getD i [], v.1 = i + 1) :
    ∀ q ∈ (addNodesAll layers cats).nodes, q.2 = pinnedS cats q.1 := by
  unfold addNodesAll
  apply foldl_preserve_mem
    (fun (g : UGraph (Nat × Nat)) => ∀ q ∈ g.nodes, q.2 = pinnedS cats q.1)
    _ _ ?_ _ ?_
  · intro g i _ hg
    apply foldl_preserve_mem
      (fun (g : UGraph (Nat × Nat)) => ∀ q ∈ g.nodes, q.2 = pinnedS cats q.1)
      _ _ ?_ _ hg
    intro g2 v hv hg2
    apply uPinned_addNode g2 (pinnedS cats) v _ ?_ hg2
    rw [pinnedS, hfst i v hv]
    simp
  · intro q hq
    simp at hq

theorem addNodesAll_hasNode (layers : List (List (Nat × Nat))) (cats : List String) :
    ∀ i, i < layers.length → ∀ v ∈ layers.getD i [],
      (addNodesAll layers cats).hasNode v = true := by
  intro i hi v hv
  unfold addNodesAll
  have hmem : i ∈ List.range layers.length := List.mem_range.mpr hi
  obtain ⟨s, t, hst⟩ := List.append_of_mem hmem
  rw [hst, List.foldl_append, List.foldl_cons]
  apply foldl_hasNode_mono _ ?_ t _ v ?_
  · intro g x w h
    exact foldl_hasNode_mono _
      (fun g2 y w2 h2 => hasNodeU_addNode_mono _ _ _ _ h2) _ g w h
  · obtain ⟨s2, t2, hst2⟩ := List.append_of_mem hv
    rw [hst2, List.foldl_append, List.foldl_cons]
    exact foldl_hasNode_mono _
      (fun g2 y w2 h2 => hasNodeU_addNode_mono _ _ _ _ h2) t2 _ v
      (hasNodeU_addNode_self _ _ _)

/-! ## Arithmetic facts about layer sizes -/

theorem cmax_cons_cons (a b : Nat) (t : List Nat) :
    currentMaxEdges (a :: b :: t) = a * b + currentMaxEdges (b :: t) := by
  simp [currentMaxEdges]

theorem cmax_replicate : ∀ (L m : Nat),
    currentMaxEdges (List.replicate L m) = (L - 1) * (m * m)
  | 0, _ => by simp [currentMaxEdges]
  | 1, _ => by simp [currentMaxEdges]
  | (n + 2), m => by
    have h2 : List.replicate (n + 2) m = m :: m :: List.replicate n m := rfl
    have h1 : (m :: List.replicate n m) = List.replicate (n + 1) m := rfl
    rw [h2, cmax_cons_cons, h1, cmax_replicate (n + 1) m]
    have e1 : n + 1 - 1 = n := rfl
    have e2 : n + 2 - 1 = n + 1 := rfl
    rw [e1, e2]
    ring

theorem cmin_replicate (L m : Nat) :
    currentMinEdges (List.replicate L m) = (L - 1) * m := by
  unfold currentMinEdges
  rw [List.drop_replicate]
  simp [List.sum_replicate, mul_comm]

theorem cmin_le_cmax : ∀ (ls : List Nat), (∀ x ∈ ls, 1 ≤ x) →
    currentMinEdges ls ≤ currentMaxEdges ls
  | [], _ => le_refl _
  | [a], _ => by simp [currentMinEdges, currentMaxEdges]
  | (a :: b :: t), h => by
    have hmin : currentMinEdges (a :: b :: t) = b + currentMinEdges (b :: t) := by
      simp [currentMinEdges]
    have ih := cmin_le_cmax (b :: t) (fun x hx => h x (List.mem_cons_of_mem a hx))
    rw [hmin, cmax_cons_cons]
    have ha : 1 ≤ a := h a (List.mem_cons_self _ _)
    have hb : b ≤ a * b := Nat.le_mul_of_pos_left b ha
    omega

theorem sum_bump : ∀ (ls : List Nat) (i : Nat),
    (bumpAt ls i).sum ≤ ls.sum + 1
  | [], _ => by simp [bumpAt]
  | (a :: t), 0 => by
    have hb : bumpAt (a :: t) 0 = (a + 1) :: t := by simp [bumpAt]
    rw [hb]
    simp only [List.sum_cons]
    omega
  | (a :: t), (i + 1) => by
    have hb : bumpAt (a :: t) (i + 1) = a :: bumpAt t i := rfl
    rw [hb]
    simp only [List.sum_cons]
    have := sum_bump t i
    omega

theorem cmin_bump : ∀ (ls : List Nat) (i : Nat),
    currentMinEdges (bumpAt ls i) ≤ currentMinEdges ls + 1
  | [], _ => by simp [bumpAt, currentMinEdges]
  | (a :: t), 0 => by simp [bumpAt, currentMinEdges]
  | (a :: t), (i + 1) => by
    have hb : bumpAt (a :: t) (i + 1) = a :: bumpAt t i := rfl
    rw [hb]
    unfold currentMinEdges
    simp only [List.drop_one, List.tail_cons]
    exact sum_bump t i

theorem bump_length (ls : List Nat) (i : Nat) : (bumpAt ls i).length = ls.length := by
  simp [bumpAt]

theorem set_beyond {β : Type} : ∀ (l : List β) (i : Nat) (v : β),
    l.length ≤ i → l.set i v = l
  | [], _, _, _ => rfl
  | (a :: t), 0, _, h => absurd h (by simp)
  | (a :: t), (i + 1), v, h => by
    rw [List.set_cons_succ, set_beyond t i v (by simpa using h)]

theorem bump_mem_bound (ls : List Nat) (i : Nat) (m : Nat)
    (hm : ∀ x ∈ ls, m ≤ x) : ∀ x ∈ bumpAt ls i, m ≤ x := by
  intro x hx
  by_cases hi : i < ls.length
  · rcases List.mem_or_eq_of_mem_set hx with h | h
    · exact hm x h
    · have hmem : ls.getD i 0 ∈ ls := by
        rw [List.getD_eq_getElem _ _ hi]
        exact List.getElem_mem hi
      have := hm _ hmem
      omega
  · rw [bumpAt, set_beyond ls i _ (le_of_not_lt hi)] at hx
    exact hm x hx

theorem bump_mem_upper (ls : List Nat) (i : Nat) (maxI : Nat)
    (hub : ∀ x ∈ ls, x ≤ maxI) (hlt : ls.getD i 0 < maxI) :
    ∀ x ∈ bumpAt ls i, x ≤ maxI := by
  intro x hx
  rcases List.mem_or_eq_of_mem_set hx with h | h
  · exact hub x h
  · omega

theorem measure_bump : ∀ (ls : List Nat) (i maxI : Nat), i < ls.length →
    ls.getD i 0 < maxI →
    ((bumpAt ls i).map (fun x => maxI - x)).sum + 1 =
      (ls.map (fun x => maxI - x)).sum
  | [], i, maxI, h, _ => absurd h (by simp)
  | (a :: t), 0, maxI, _, hlt => by
    have hb : bumpAt (a :: t) 0 = (a + 1) :: t := by simp [bumpAt]
    rw [hb]
    simp only [List.map_cons, List.sum_cons]
    simp only [bumpAt, List.getD_cons_zero] at hlt
    omega
  | (a :: t), (i + 1), maxI, h, hlt => by
    have hb : bumpAt (a :: t) (i + 1) = a :: bumpAt t i := rfl
    rw [hb]
    simp only [List.map_cons, List.sum_cons]
    have hlen : i < t.length := by simpa using h
    have hlt2 : t.getD i 0 < maxI := by simpa [bumpAt] using hlt
    have := measure_bump t i maxI hlen hlt2
    omega

theorem nat_sum_zero_mem : ∀ (l : List Nat), l.sum = 0 → ∀ x ∈ l, x = 0
  | [], _, x, hx => absurd hx (by simp)
  | (a :: t), h, x, hx => by
    simp only [List.sum_cons] at h
    rcases List.mem_cons.mp hx with rfl | hx'
    · omega
    · exact nat_sum_zero_mem t (by omega) x hx'

theorem all_max_of_measure_zero (ls : List Nat) (maxI : Nat)
    (hub : ∀ x ∈ ls, x ≤ maxI)
    (hz : (ls.map (fun x => maxI - x)).sum = 0) :
    ls = List.replicate ls.length maxI := by
  rw [List.eq_replicate_iff]
  refine ⟨rfl, ?_⟩
  intro b hb
  have hb2 : maxI - b = 0 := by
    have hmem : maxI - b ∈ ls.map (fun x => maxI - x) := List.mem_map_of_mem _ hb
    exact nat_sum_zero_mem _ hz _ hmem
  have := hub b hb
  omega

theorem exists_below_max (ls : List Nat) (L maxI : Nat) (hlen : ls.length = L)
    (hub : ∀ x ∈ ls, x ≤ maxI) (hne : ls ≠ List.replicate L maxI) :
    ∃ j ∈ List.range L, ls.getD j 0 < maxI := by
  by_contra hc
  push_neg at hc
  apply hne
  rw [List.eq_replicate_iff]
  refine ⟨hlen, ?_⟩
  intro b hb
  obtain ⟨j, hj, hbj⟩ := List.mem_iff_getElem.mp hb
  have hjL : j < L := by omega
  have h1 := hc j (List.mem_range.mpr hjL)
  rw [List.getD_eq_getElem _ _ hj] at h1
  have h2 := hub b hb
  omega

theorem sum_getD_range : ∀ (t : List Nat),
    ((List.range t.length).map (fun i => t.getD i 0)).sum = t.sum
  | [] => rfl
  | (a :: t) => by
    have hr : List.range (a :: t).length = 0 :: (List.range t.length).map Nat.succ :=
      List.range_succ_eq_map t.length
    rw [hr]
    simp only [List.map_cons, List.map_map, List.sum_cons, List.getD_cons_zero]
    have hmc : ((List.range t.length).map ((fun i => (a :: t).getD i 0) ∘ Nat.succ)).sum =
        ((List.range t.length).map (fun i => t.getD i 0)).sum := by
      apply congrArg
      apply List.map_congr_left
      intro i _
      rfl
    rw [hmc, sum_getD_range t]

theorem cmax_range : ∀ (ls : List Nat),
    currentMaxEdges ls =
      ((List.range (ls.length - 1)).map (fun i => ls.getD i 0 * ls.getD (i + 1) 0)).sum
  | [] => rfl
  | [a] => rfl
  | (a :: b :: t) => by
    rw [cmax_cons_cons, cmax_range (b :: t)]
    have hlen : (a :: b :: t).length - 1 = ((b :: t).length - 1) + 1 := by simp
    rw [hlen, List.range_succ_eq_map]
    simp only [List.map_cons, List.map_map, List.sum_cons, List.getD_cons_zero]
    have hmc : ((List.range ((b :: t).length - 1)).map
        ((fun i => (a :: b :: t).getD i 0 * (a :: b :: t).getD (i + 1) 0) ∘ Nat.succ)).sum =
        ((List.range ((b :: t).length - 1)).map
          (fun i => (b :: t).getD i 0 * (b :: t).getD (i + 1) 0)).sum := by
      apply congrArg
      apply List.map_congr_left
      intro i _
      rfl
    rw [hmc]
    rfl

theorem randint_bounds (a b : Nat) (r : Rnd) (h : a ≤ b) :
    a ≤ (randint a b r).1 ∧ (randint a b r).1 ≤ b := by
  unfold randint Rnd.next
  have hpos : 0 < b - a + 1 := by omega
  have hmod : r.s r.k % (b - a + 1) < b - a + 1 := Nat.mod_lt _ hpos
  constructor
  · simp only []
    omega
  · simp only []
    omega

theorem choiceL_mem {β : Type} (xs : List β) (d : β) (r : Rnd) (h : xs ≠ []) :
    (choiceL xs d r).1 ∈ xs := by
  unfold choiceL Rnd.next
  simp only []
  have hlen : 0 < xs.length := List.length_pos.mpr h
  have hmod : r.s r.k % xs.length < xs.length := Nat.mod_lt _ hlen
  rw [List.getD_eq_getElem _ _ hmod]
  exact List.getElem_mem hmod

/-! ## The layer-growth loop (C7, C8, C9) -/

theorem belowMaxIdxs_spec (maxI L : Nat) (ls : List Nat) (i : Nat)
    (h : i ∈ belowMaxIdxs maxI L ls) : i < L ∧ ls.getD i 0 < maxI := by
  unfold belowMaxIdxs at h
  have hh := List.mem_filter.mp h
  exact ⟨List.mem_range.mp hh.1, by simpa using hh.2⟩

theorem belowMaxIdxs_ne_nil (maxI L : Nat) (ls : List Nat) (hlen : ls.length = L)
    (hub : ∀ x ∈ ls, x ≤ maxI) (hne : ls ≠ List.replicate L maxI) :
    belowMaxIdxs maxI L ls ≠ [] := by
  obtain ⟨j, hj1, hj2⟩ := exists_below_max ls L maxI hlen hub hne
  exact List.ne_nil_of_mem (List.mem_filter.mpr ⟨hj1, by simpa using hj2⟩)

theorem growthLoop_post (maxI numE L p lo : Nat) (hlo : 1 ≤ lo)
    (hnum : numE ≤ (L - 1) * (maxI * maxI)) :
    ∀ (fuel : Nat) (ls : List Nat) (r : Rnd) (out : List Nat × Rnd),
      growthLoop maxI numE L p fuel ls r = some out →
      ls.length = L → (∀ x ∈ ls, lo ≤ x) → (∀ x ∈ ls, x ≤ maxI) →
      currentMinEdges ls ≤ numE →
      out.1.length = L ∧ (∀ x ∈ out.1, lo ≤ x) ∧ (∀ x ∈ out.1, x ≤ maxI) ∧
      currentMinEdges out.1 ≤ numE ∧ numE ≤ currentMaxEdges out.1 := by
  intro fuel
  induction fuel with
  | zero =>
    intro ls r out h hlen hlb hub hcmin
    rw [growthLoop] at h
    by_cases hrep : ls = List.replicate L maxI
    · rw [if_pos hrep, Option.some_inj] at h
      subst h
      refine ⟨hlen, hlb, hub, hcmin, ?_⟩
      rw [hrep, cmax_replicate]
      exact hnum
    · rw [if_neg hrep] at h
      simp at h
  | succ f ih =>
    intro ls r out h hlen hlb hub hcmin
    have hone : ∀ x ∈ ls, 1 ≤ x := fun x hx => le_trans hlo (hlb x hx)
    rw [growthLoop] at h
    by_cases hrep : ls = List.replicate L maxI
    · rw [if_pos hrep, Option.some_inj] at h
      subst h
      refine ⟨hlen, hlb, hub, hcmin, ?_⟩
      rw [hrep, cmax_replicate]
      exact hnum
    · rw [if_neg hrep] at h
      have hids := belowMaxIdxs_ne_nil maxI L ls hlen hub hrep
      by_cases hforce : currentMaxEdges ls < numE
      · rw [if_pos hforce] at h
        have hmem := choiceL_mem (belowMaxIdxs maxI L ls) 0 r hids
        obtain ⟨hiL, hilt⟩ := belowMaxIdxs_spec maxI L ls _ hmem
        have hclc : currentMinEdges ls ≤ currentMaxEdges ls := cmin_le_cmax ls hone
        refine ih _ _ _ h (by rw [bump_length, hlen])
          (bump_mem_bound ls _ lo hlb) (bump_mem_upper ls _ maxI hub hilt) ?_
        have := cmin_bump ls (choiceL (belowMaxIdxs maxI L ls) 0 r).1
        omega
      · rw [if_neg hforce] at h
        by_cases hmin : currentMinEdges ls = numE
        · rw [if_pos hmin, Option.some_inj] at h
          subst h
          refine ⟨hlen, hlb, hub, hcmin, ?_⟩
          dsimp only
          omega
        · rw [if_neg hmin] at h
          by_cases hu : (r.next).1 < p
          · rw [if_pos hu] at h
            by_cases hie : (belowMaxIdxs maxI L ls).isEmpty
            · rw [if_pos hie, Option.some_inj] at h
              subst h
              refine ⟨hlen, hlb, hub, hcmin, ?_⟩
              dsimp only
              omega
            · rw [if_neg hie] at h
              have hmem := choiceL_mem (belowMaxIdxs maxI L ls) 0 (r.next).2 hids
              obtain ⟨hiL, hilt⟩ := belowMaxIdxs_spec maxI L ls _ hmem
              refine ih _ _ _ h (by rw [bump_length, hlen])
                (bump_mem_bound ls _ lo hlb) (bump_mem_upper ls _ maxI hub hilt) ?_
              have := cmin_bump ls (choiceL (belowMaxIdxs maxI L ls) 0 (r.next).2).1
              omega
          · rw [if_neg hu, Option.some_inj] at h
            subst h
            refine ⟨hlen, hlb, hub, hcmin, ?_⟩
            dsimp only
            omega

theorem growthLoop_terminates (maxI numE L p : Nat) :
    ∀ (fuel : Nat) (ls : List Nat) (r : Rnd),
      ls.length = L → (∀ x ∈ ls, x ≤ maxI) →
      (ls.map (fun x => maxI - x)).sum ≤ fuel →
      (growthLoop maxI numE L p fuel ls r).isSome = true := by
  intro fuel
  induction fuel with
  | zero =>
    intro ls r hlen hub hm
    have hz : (ls.map (fun x => maxI - x)).sum = 0 := Nat.le_zero.mp hm
    have hrep := all_max_of_measure_zero ls maxI hub hz
    rw [hlen] at hrep
    rw [growthLoop, if_pos hrep]
    rfl
  | succ f ih =>
    intro ls r hlen hub hm
    rw [growthLoop]
    by_cases hrep : ls = List.replicate L maxI
    · rw [if_pos hrep]; rfl
    · rw [if_neg hrep]
      have hids := belowMaxIdxs_ne_nil maxI L ls hlen hub hrep
      by_cases hforce : currentMaxEdges ls < numE
      · rw [if_pos hforce]
        have hmem := choiceL_mem (belowMaxIdxs maxI L ls) 0 r hids
        obtain ⟨hiL, hilt⟩ := belowMaxIdxs_spec maxI L ls _ hmem
        apply ih
        · rw [bump_length, hlen]
        · exact bump_mem_upper ls _ maxI hub hilt
        · have := measure_bump ls _ maxI (by omega) hilt
          omega
      · rw [if_neg hforce]
        by_cases hmin : currentMinEdges ls = numE
        · rw [if_pos hmin]; rfl
        · rw [if_neg hmin]
          by_cases hu : (r.next).1 < p
          · rw [if_pos hu]
            have hie : (belowMaxIdxs maxI L ls).isEmpty = false := by
              cases hcase : (belowMaxIdxs maxI L ls).isEmpty
              · rfl
              · exact absurd (List.isEmpty_iff.mp hcase) hids
            rw [hie]
            simp only [Bool.false_eq_true, if_false]
            have hmem := choiceL_mem (belowMaxIdxs maxI L ls) 0 (r.next).2 hids
            obtain ⟨hiL, hilt⟩ := belowMaxIdxs_spec maxI L ls _ hmem
            apply ih
            · rw [bump_length, hlen]
            · exact bump_mem_upper ls _ maxI hub hilt
            · have := measure_bump ls _ maxI (by omega) hilt
              omega
          · rw [if_neg hu]; rfl

/-! ## The extra-edge rejection loop -/

theorem extraLoop_facts (layers : List (List (Nat × Nat))) (L numE : Nat)
    (hL : 2 ≤ L) (hnz : ∀ i, i < L → layers.getD i [] ≠ []) :
    ∀ (fuel : Nat) (g : UGraph (Nat × Nat)) (r : Rnd),
      (∀ i, i < L → ∀ v ∈ layers.getD i [], g.hasNode v = true) →
      (extraEdgesLoop layers L numE fuel g r).1.nodes = g.nodes ∧
      ∃ ext, (extraEdgesLoop layers L numE fuel g r).1.edges = g.edges ++ ext ∧
        (∀ e ∈ ext, ∃ i, i + 1 < L ∧ e.1 ∈ layers.getD i [] ∧
          e.2 ∈ layers.getD (i + 1) []) ∧
        (g.edges.length ≤ numE →
          (extraEdgesLoop layers L numE fuel g r).1.edges.length ≤ numE) := by
  intro fuel
  induction fuel with
  | zero =>
    intro g r _
    exact ⟨rfl, [], by simp [extraEdgesLoop], by simp, fun h => by
      simpa [extraEdgesLoop] using h⟩
  | succ f ih =>
    intro g r hpres
    rw [extraEdgesLoop]
    by_cases hlt : g.edges.length < numE
    · rw [if_pos hlt]
      have hiL : (extraDrawI L r).1 + 1 < L := by
        unfold extraDrawI randint Rnd.next
        dsimp only
        have hm := Nat.mod_lt (r.s r.k) (show 0 < L - 2 - 0 + 1 by omega)
        omega
      have hamem : (extraDrawA layers L r).1 ∈ layers.getD (extraDrawI L r).1 [] := by
        unfold extraDrawA
        exact choiceL_mem _ _ _ (hnz _ (by omega))
      have hbmem : (extraDrawB layers L r).1 ∈
          layers.getD ((extraDrawI L r).1 + 1) [] := by
        unfold extraDrawB
        exact choiceL_mem _ _ _ (hnz _ hiL)
      by_cases hhe : g.hasEdge (extraDrawA layers L r).1 (extraDrawB layers L r).1
      · rw [if_pos hhe]
        exact ih g _ hpres
      · rw [if_neg hhe]
        have hga : g.hasNode (extraDrawA layers L r).1 = true :=
          hpres _ (by omega) _ hamem
        have hgb : g.hasNode (extraDrawB layers L r).1 = true :=
          hpres _ hiL _ hbmem
        obtain ⟨hnodes, hedges⟩ :=
          addEdgeU_present g (extraDrawA layers L r).1 (extraDrawB layers L r).1 hga hgb
        rw [if_neg hhe] at hedges
        have hpres2 : ∀ i, i < L → ∀ v ∈ layers.getD i [],
            (g.addEdge (extraDrawA layers L r).1 (extraDrawB layers L r).1).hasNode v
              = true := by
          intro i hi v hv
          have hh := hpres i hi v hv
          unfold UGraph.hasNode at hh ⊢
          rw [hnodes]
          exact hh
        obtain ⟨hn2, ext, hext, hadj, hlen2⟩ := ih
          (g.addEdge (extraDrawA layers L r).1 (extraDrawB layers L r).1) _ hpres2
        refine ⟨by rw [hn2, hnodes],
          ((extraDrawA layers L r).1, (extraDrawB layers L r).1) :: ext, ?_, ?_, ?_⟩
        · rw [hext, hedges]
          simp
        · intro e he
          rcases List.mem_cons.mp he with rfl | he'
          · exact ⟨(extraDrawI L r).1, hiL, hamem, hbmem⟩
          · exact hadj e he'
        · intro _
          apply hlen2
          rw [hedges]
          rw [List.length_append]
          simp only [List.length_singleton]
          omega
    · rw [if_neg hlt]
      exact ⟨rfl, [], by simp, by simp, fun h => by simpa⟩

/-! ## The connectivity phase -/

theorem parentLayerFold (layers : List (List (Nat × Nat))) (i : Nat)
    (hi1 : 1 ≤ i) (hiL : i < layers.length)
    (hprev : layers.getD (i - 1) [] ≠ [])
    (hfst : ∀ j, ∀ v ∈ layers.getD j [], v.1 = j + 1) :
    ∀ (todo : List (Nat × Nat)) (gr : UGraph (Nat × Nat) × Rnd),
      (∀ v ∈ todo, v ∈ layers.getD i []) → todo.Nodup →
      (∀ e ∈ gr.1.edges, e.1 ∉ todo ∧ e.2 ∉ todo) →
      (∀ j, j < layers.length → ∀ v ∈ layers.getD j [], gr.1.hasNode v = true) →
      (todo.foldl (parentStep layers i) gr).1.nodes = gr.1.nodes ∧
      ∃ ext, (todo.foldl (parentStep layers i) gr).1.edges = gr.1.edges ++ ext ∧
        ext.length = todo.length ∧
        (∀ e ∈ ext, e.1 ∈ layers.getD i [] ∧ e.2 ∈ layers.getD (i - 1) []) ∧
        (∀ v ∈ todo, ∃ u ∈ layers.getD (i - 1) [],
          (todo.foldl (parentStep layers i) gr).1.hasEdge v u = true) := by
  intro todo
  induction todo with
  | nil =>
    intro gr _ _ _ _
    exact ⟨rfl, [], by simp, rfl, by simp, by simp⟩
  | cons v rest ih =>
    intro gr htodo hnd htouch hpres
    rw [List.foldl_cons]
    have hpmem : (choiceL (layers.getD (i - 1) []) (0, 0) gr.2).1 ∈
        layers.getD (i - 1) [] := choiceL_mem _ _ _ hprev
    have hvmem := htodo v (List.mem_cons_self _ _)
    have hgv : gr.1.hasNode v = true := hpres i hiL v hvmem
    have hgp : gr.1.hasNode (choiceL (layers.getD (i - 1) []) (0, 0) gr.2).1 = true :=
      hpres (i - 1) (by omega) _ hpmem
    have hfresh : gr.1.hasEdge v (choiceL (layers.getD (i - 1) []) (0, 0) gr.2).1
        = false := by
      cases hcase : gr.1.hasEdge v (choiceL (layers.getD (i - 1) []) (0, 0) gr.2).1
      · rfl
      · exfalso
        unfold UGraph.hasEdge at hcase
        rw [List.any_eq_true] at hcase
        obtain ⟨e, he, hp⟩ := hcase
        have hto := htouch e he
        simp only [Bool.or_eq_true, Bool.and_eq_true, decide_eq_true_eq] at hp
        rcases hp with ⟨h1, _⟩ | ⟨_, h2⟩
        · exact hto.1 (by rw [h1]; exact List.mem_cons_self _ _)
        · exact hto.2 (by rw [h2]; exact List.mem_cons_self _ _)
    obtain ⟨hnodes, hedges⟩ := addEdgeU_present gr.1 v
      (choiceL (layers.getD (i - 1) []) (0, 0) gr.2).1 hgv hgp
    rw [hfresh] at hedges
    simp only [Bool.false_eq_true, if_false] at hedges
    have hstep1 : (parentStep layers i gr v).1 =
        gr.1.addEdge v (choiceL (layers.getD (i - 1) []) (0, 0) gr.2).1 := rfl
    have hvnotin : v ∉ rest := (List.nodup_cons.mp hnd).1
    have htodo2 : ∀ w ∈ rest, w ∈ layers.getD i [] :=
      fun w hw => htodo w (List.mem_cons_of_mem _ hw)
    have htouch2 : ∀ e ∈ (parentStep layers i gr v).1.edges,
        e.1 ∉ rest ∧ e.2 ∉ rest := by
      intro e he
      rw [hstep1, hedges] at he
      rcases List.mem_append.mp he with h | h
      · have hto := htouch e h
        exact ⟨fun hc => hto.1 (List.mem_cons_of_mem _ hc),
          fun hc => hto.2 (List.mem_cons_of_mem _ hc)⟩
      · simp only [List.mem_singleton] at h
        subst h
        refine ⟨hvnotin, ?_⟩
        intro hc
        have h1 := hfst (i - 1) _ hpmem
        have h2 := hfst i _ (htodo2 _ hc)
        dsimp only at h1 h2
        omega
    have hpres2 : ∀ j, j < layers.length → ∀ w ∈ layers.getD j [],
        (parentStep layers i gr v).1.hasNode w = true := by
      intro j hj w hw
      have hh := hpres j hj w hw
      unfold UGraph.hasNode at hh ⊢
      rw [hstep1, hnodes]
      exact hh
    obtain ⟨hn2, ext, hext, hlen2, hadj2, hnb2⟩ :=
      ih (parentStep layers i gr v) htodo2 (List.nodup_cons.mp hnd).2 htouch2 hpres2
    refine ⟨by rw [hn2, hstep1, hnodes],
      (v, (choiceL (layers.getD (i - 1) []) (0, 0) gr.2).1) :: ext, ?_, ?_, ?_, ?_⟩
    · rw [hext, hstep1, hedges]
      simp
    · simp [hlen2]
    · intro e he
      rcases List.mem_cons.mp he with rfl | he'
      · exact ⟨hvmem, hpmem⟩
      · exact hadj2 e he'
    · intro w hw
      rcases List.mem_cons.mp hw with h | hw'
      · subst h
        refine ⟨(choiceL (layers.getD (i - 1) []) (0, 0) gr.2).1, hpmem, ?_⟩
        apply hasEdgeU_append (parentStep layers i gr w).1 _ _ ext _ hext
        rw [hstep1]
        exact hasEdgeU_addEdge_self gr.1 _ _ hgv hgp
      · exact hnb2 w hw'

theorem mem_drop_one_range (n j : Nat) (h : j ∈ (List.range n).drop 1) :
    1 ≤ j ∧ j < n := by
  cases n with
  | zero => simp at h
  | succ m =>
    rw [List.range_succ_eq_map] at h
    have hd : ((0 : Nat) :: (List.range m).map Nat.succ).drop 1 =
        (List.range m).map Nat.succ := rfl
    rw [hd] at h
    simp only [List.mem_map, List.mem_range] at h
    obtain ⟨i, hi, hij⟩ := h
    omega

theorem mem_drop_one_range_of (n j : Nat) (h1 : 1 ≤ j) (h2 : j < n) :
    j ∈ (List.range n).drop 1 := by
  cases n with
  | zero => omega
  | succ m =>
    rw [List.range_succ_eq_map]
    have hd : ((0 : Nat) :: (List.range m).map Nat.succ).drop 1 =
        (List.range m).map Nat.succ := rfl
    rw [hd]
    simp only [List.mem_map, List.mem_range]
    exact ⟨j - 1, by omega, by omega⟩

theorem pairwise_drop_one_range (n : Nat) :
    List.Pairwise (· < ·) ((List.range n).drop 1) :=
  List.Pairwise.sublist (List.drop_sublist 1 (List.range n)) (List.pairwise_lt_range n)

theorem sum_ge (m : Nat) : ∀ (t : List Nat), (∀ x ∈ t, m ≤ x) →
    t.length * m ≤ t.sum
  | [], _ => by simp
  | (a :: t), h => by
    have ih := sum_ge m t (fun x hx => h x (List.mem_cons_of_mem _ hx))
    have ha := h a (List.mem_cons_self _ _)
    simp only [List.length_cons, List.sum_cons]
    have : (t.length + 1) * m = t.length * m + m := by ring
    omega

theorem sum_map_const {β : Type} (c : Nat) : ∀ (l : List β),
    (l.map (fun _ => c)).sum = l.length * c
  | [] => by simp
  | (a :: t) => by
    simp only [List.map_cons, List.sum_cons, List.length_cons, sum_map_const c t]
    ring

theorem sum_layers_drop_one (ls : List Nat) :
    (((List.range ls.length).drop 1).map
      (fun j => ((mkLayers ls).getD j []).length)).sum = currentMinEdges ls := by
  cases ls with
  | nil => rfl
  | cons a t =>
    have hr : (List.range (a :: t).length).drop 1 = (List.range t.length).map Nat.succ := by
      rw [show (a :: t).length = t.length + 1 from rfl, List.range_succ_eq_map]
      rfl
    rw [hr, List.map_map]
    unfold currentMinEdges
    simp only [List.drop_one, List.tail_cons]
    have hc : ∀ i ∈ List.range t.length,
        ((fun j => ((mkLayers (a :: t)).getD j []).length) ∘ Nat.succ) i = t.getD i 0 := by
      intro i hi
      have hi' : i < t.length := List.mem_range.mp hi
      have hlt : Nat.succ i < (a :: t).length := by
        simp only [List.length_cons]
        omega
      show ((mkLayers (a :: t)).getD (Nat.succ i) []).length = t.getD i 0
      rw [mkLayers_getD_length _ _ hlt]
      rfl
    rw [List.map_congr_left hc]
    exact sum_getD_range t

theorem parentOuterFold (layers : List (List (Nat × Nat)))
    (hfst : ∀ j, ∀ v ∈ layers.getD j [], v.1 = j + 1)
    (hnd : ∀ j, (layers.getD j []).Nodup)
    (hnz : ∀ j, j < layers.length → layers.getD j [] ≠ []) :
    ∀ (js : List Nat) (gr : UGraph (Nat × Nat) × Rnd),
      (∀ j ∈ js, 1 ≤ j ∧ j < layers.length) →
      List.Pairwise (· < ·) js →
      (∀ e ∈ gr.1.edges, ∃ j, 1 ≤ j ∧ j < layers.length ∧ (∀ j2 ∈ js, j < j2) ∧
        e.1 ∈ layers.getD j [] ∧ e.2 ∈ layers.getD (j - 1) []) →
      (∀ j, j < layers.length → ∀ v ∈ layers.getD j [], gr.1.hasNode v = true) →
      (js.foldl (fun gr2 j => (layers.getD j []).foldl (parentStep layers j) gr2)
        gr).1.nodes = gr.1.nodes ∧
      ∃ ext, (js.foldl (fun gr2 j => (layers.getD j []).foldl (parentStep layers j) gr2)
          gr).1.edges = gr.1.edges ++ ext ∧
        ext.length = (js.map (fun j => (layers.getD j []).length)).sum ∧
        (∀ e ∈ ext, ∃ j, 1 ≤ j ∧ j < layers.length ∧
          e.1 ∈ layers.getD j [] ∧ e.2 ∈ layers.getD (j - 1) []) ∧
        (∀ j ∈ js, ∀ v ∈ layers.getD j [], ∃ u ∈ layers.getD (j - 1) [],
          (js.foldl (fun gr2 j => (layers.getD j []).foldl (parentStep layers j) gr2)
            gr).1.hasEdge v u = true) := by
  intro js
  induction js with
  | nil =>
    intro gr _ _ _ _
    exact ⟨rfl, [], by simp, by simp, by simp, by simp⟩
  | cons j0 rest ih =>
    intro gr hmem hpw hchar hpres
    rw [List.foldl_cons]
    obtain ⟨hj01, hj0L⟩ := hmem j0 (List.mem_cons_self _ _)
    have htouch : ∀ e ∈ gr.1.edges,
        e.1 ∉ layers.getD j0 [] ∧ e.2 ∉ layers.getD j0 [] := by
      intro e he
      obtain ⟨j, hj1, hjL, hltj, h1, h2⟩ := hchar e he
      have hjlt : j < j0 := hltj j0 (List.mem_cons_self _ _)
      constructor
      · intro hc
        have a1 := hfst j _ h1
        have a2 := hfst j0 _ hc
        omega
      · intro hc
        have a1 := hfst (j - 1) _ h2
        have a2 := hfst j0 _ hc
        omega
    obtain ⟨hn1, ext1, hext1, hlen1, hadj1, hnb1⟩ :=
      parentLayerFold layers j0 hj01 hj0L (hnz (j0 - 1) (by omega)) hfst
        (layers.getD j0 []) gr (fun v hv => hv) (hnd j0) htouch hpres
    have hpres2 : ∀ j, j < layers.length → ∀ v ∈ layers.getD j [],
        ((layers.getD j0 []).foldl (parentStep layers j0) gr).1.hasNode v = true := by
      intro j hj v hv
      have hh := hpres j hj v hv
      unfold UGraph.hasNode at hh ⊢
      rw [hn1]
      exact hh
    have hchar2 : ∀ e ∈ ((layers.getD j0 []).foldl (parentStep layers j0) gr).1.edges,
        ∃ j, 1 ≤ j ∧ j < layers.length ∧ (∀ j2 ∈ rest, j < j2) ∧
          e.1 ∈ layers.getD j [] ∧ e.2 ∈ layers.getD (j - 1) [] := by
      intro e he
      rw [hext1] at he
      rcases List.mem_append.mp he with h | h
      · obtain ⟨j, a1, a2, a3, a4, a5⟩ := hchar e h
        exact ⟨j, a1, a2, fun j2 hj2 => a3 j2 (List.mem_cons_of_mem _ hj2), a4, a5⟩
      · obtain ⟨h1, h2⟩ := hadj1 e h
        exact ⟨j0, hj01, hj0L, fun j2 hj2 => (List.pairwise_cons.mp hpw).1 j2 hj2, h1, h2⟩
    obtain ⟨hn2, ext2, hext2, hlen2, hadj2, hnb2⟩ :=
      ih ((layers.getD j0 []).foldl (parentStep layers j0) gr)
        (fun j hj => hmem j (List.mem_cons_of_mem _ hj))
        (List.pairwise_cons.mp hpw).2 hchar2 hpres2
    refine ⟨by rw [hn2, hn1], ext1 ++ ext2, ?_, ?_, ?_, ?_⟩
    · rw [hext2, hext1, List.append_assoc]
    · rw [List.length_append, hlen1, hlen2]
      simp
    · intro e he
      rcases List.mem_append.mp he with h | h
      · obtain ⟨h1, h2⟩ := hadj1 e h
        exact ⟨j0, hj01, hj0L, h1, h2⟩
      · exact hadj2 e h
    · intro j hj v hv
      rcases List.mem_cons.mp hj with h | hj'
      · subst h
        obtain ⟨u, hu1, hu2⟩ := hnb1 v hv
        exact ⟨u, hu1, hasEdgeU_append _ v u ext2 _ hext2 hu2⟩
      · exact hnb2 j hj' v hv

theorem gsg_pipeline (minI maxI L fuelG fuelE : Nat) (r : Rnd)
    (hmin : 1 ≤ minI) (hmm : minI ≤ maxI) (hL : 2 ≤ L)
    (g : UGraph (Nat × Nat)) (layers : List (List (Nat × Nat)))
    (h : generate_structure_graph minI maxI (some L) fuelG fuelE r = some (g, layers)) :
    ∃ (ls : List Nat) (cats : List String) (numE : Nat),
      layers = mkLayers ls ∧ ls.length = L ∧
      (∀ x ∈ ls, minI ≤ x) ∧ (∀ x ∈ ls, x ≤ maxI) ∧
      (L - 1) * minI ≤ numE ∧ numE ≤ (L - 1) * maxI ^ 2 ∧
      currentMinEdges ls ≤ numE ∧ numE ≤ currentMaxEdges ls ∧
      (∀ q ∈ g.nodes, q.2 = pinnedS cats q.1) ∧
      (∀ i, i < L → ∀ v ∈ (mkLayers ls).getD i [], g.hasNode v = true) ∧
      (∃ extP extE,
        g.edges = extP ++ extE ∧
        extP.length = currentMinEdges ls ∧
        (∀ e ∈ extP, ∃ j, 1 ≤ j ∧ j < L ∧ e.1 ∈ (mkLayers ls).getD j [] ∧
          e.2 ∈ (mkLayers ls).getD (j - 1) []) ∧
        (∀ e ∈ extE, ∃ i, i + 1 < L ∧ e.1 ∈ (mkLayers ls).getD i [] ∧
          e.2 ∈ (mkLayers ls).getD (i + 1) []) ∧
        g.edges.length ≤ numE) ∧
      (∀ i, 1 ≤ i → i < L → ∀ v ∈ (mkLayers ls).getD i [],
        ∃ u ∈ (mkLayers ls).getD (i - 1) [], g.hasEdge v u = true) := by
  have h' : (match growthLoop maxI (gsgNumE minI maxI L r).1 L
      ((gsgNumE minI maxI L r).2.next).1 fuelG (List.replicate L minI)
      ((gsgNumE minI maxI L r).2.next).2 with
    | none => none
    | some lsr =>
      some (buildFromSizes L (gsgNumE minI maxI L r).1 fuelE lsr.1 lsr.2)) =
      some (g, layers) := h
  cases hgl : growthLoop maxI (gsgNumE minI maxI L r).1 L
      ((gsgNumE minI maxI L r).2.next).1 fuelG (List.replicate L minI)
      ((gsgNumE minI maxI L r).2.next).2 with
  | none =>
    rw [hgl] at h'
    exact absurd h' (by simp)
  | some lsr =>
    rw [hgl] at h'
    have h2 : buildFromSizes L (gsgNumE minI maxI L r).1 fuelE lsr.1 lsr.2 =
        (g, layers) := Option.some.inj h'
    have hgeq : (extraEdgesLoop (mkLayers lsr.1) L (gsgNumE minI maxI L r).1 fuelE
        (addParentEdges (mkLayers lsr.1)
          (addNodesAll (mkLayers lsr.1) (select_categories L lsr.2).1)
          (select_categories L lsr.2).2).1
        (addParentEdges (mkLayers lsr.1)
          (addNodesAll (mkLayers lsr.1) (select_categories L lsr.2).1)
          (select_categories L lsr.2).2).2).1 = g := congrArg Prod.fst h2
    have hlay : mkLayers lsr.1 = layers := congrArg Prod.snd h2
    refine ⟨lsr.1, (select_categories L lsr.2).1, (gsgNumE minI maxI L r).1,
      hlay.symm, ?_⟩
    have hle : (L - 1) * minI ≤ (L - 1) * maxI ^ 2 := by
      apply Nat.mul_le_mul_left
      calc minI ≤ maxI := hmm
        _ ≤ maxI * maxI := Nat.le_mul_of_pos_left maxI (by omega)
        _ = maxI ^ 2 := (pow_two maxI).symm
    have hnb : (L - 1) * minI ≤ (gsgNumE minI maxI L r).1 ∧
        (gsgNumE minI maxI L r).1 ≤ (L - 1) * maxI ^ 2 :=
      randint_bounds ((L - 1) * minI) ((L - 1) * maxI ^ 2) r hle
    have hpost := growthLoop_post maxI (gsgNumE minI maxI L r).1 L
        ((gsgNumE minI maxI L r).2.next).1 minI hmin
        (by rw [← pow_two maxI]; exact hnb.2)
        fuelG (List.replicate L minI) ((gsgNumE minI maxI L r).2.next).2 lsr hgl
        (by simp)
        (fun x hx => le_of_eq (List.eq_of_mem_replicate hx).symm)
        (fun x hx => by rw [List.eq_of_mem_replicate hx]; exact hmm)
        (by rw [cmin_replicate]; exact hnb.1)
    obtain ⟨hlsLen, hlsLb, hlsUb, hcminLe, hcmaxGe⟩ := hpost
    have hfstL : ∀ j, ∀ v ∈ (mkLayers lsr.1).getD j [], v.1 = j + 1 :=
      fun j v hv => mem_mkLayers_fst lsr.1 j v hv
    have hndL : ∀ j, ((mkLayers lsr.1).getD j []).Nodup := mkLayers_getD_nodup lsr.1
    have hlenL : (mkLayers lsr.1).length = L := by rw [mkLayers_length]; exact hlsLen
    have hnzL : ∀ i, i < (mkLayers lsr.1).length → (mkLayers lsr.1).getD i [] ≠ [] := by
      intro i hi
      rw [hlenL] at hi
      have hils : i < lsr.1.length := by rw [hlsLen]; exact hi
      apply mkLayers_ne_nil lsr.1 i hils
      have hmem : lsr.1.getD i 0 ∈ lsr.1 := by
        rw [List.getD_eq_getElem _ _ hils]
        exact List.getElem_mem hils
      have := hlsLb _ hmem
      omega
    have hpres0 : ∀ i, i < (mkLayers lsr.1).length → ∀ v ∈ (mkLayers lsr.1).getD i [],
        (addNodesAll (mkLayers lsr.1) (select_categories L lsr.2).1).hasNode v = true :=
      addNodesAll_hasNode (mkLayers lsr.1) (select_categories L lsr.2).1
    have hedges0 : (addNodesAll (mkLayers lsr.1)
        (select_categories L lsr.2).1).edges = [] := addNodesAll_edges _ _
    have hpin0 : ∀ q ∈ (addNodesAll (mkLayers lsr.1)
          (select_categories L lsr.2).1).nodes,
        q.2 = pinnedS (select_categories L lsr.2).1 q.1 :=
      addNodesAll_pinned _ _ hfstL
    obtain ⟨hn1, extP, hext1, hlenP, hadjP, hnbP⟩ :=
      parentOuterFold (mkLayers lsr.1) hfstL hndL hnzL
        ((List.range (mkLayers lsr.1).length).drop 1)
        (addNodesAll (mkLayers lsr.1) (select_categories L lsr.2).1,
          (select_categories L lsr.2).2)
        (fun j hj => mem_drop_one_range _ j hj)
        (pairwise_drop_one_range _)
        (by intro e he
            rw [hedges0] at he
            exact absurd he (List.not_mem_nil e))
        (fun j hj v hv => hpres0 j hj v hv)
    have hpeEq : addParentEdges (mkLayers lsr.1)
        (addNodesAll (mkLayers lsr.1) (select_categories L lsr.2).1)
        (select_categories L lsr.2).2 =
      ((List.range (mkLayers lsr.1).length).drop 1).foldl
        (fun gr2 j => ((mkLayers lsr.1).getD j []).foldl (parentStep (mkLayers lsr.1) j) gr2)
        (addNodesAll (mkLayers lsr.1) (select_categories L lsr.2).1,
          (select_categories L lsr.2).2) := rfl
    rw [← hpeEq] at hn1 hext1 hnbP
    rw [hedges0] at hext1
    simp only [List.nil_append] at hext1
    have hpres1 : ∀ i, i < L → ∀ v ∈ (mkLayers lsr.1).getD i [],
        (addParentEdges (mkLayers lsr.1)
          (addNodesAll (mkLayers lsr.1) (select_categories L lsr.2).1)
          (select_categories L lsr.2).2).1.hasNode v = true := by
      intro i hi v hv
      have hh := hpres0 i (by rw [hlenL]; exact hi) v hv
      unfold UGraph.hasNode at hh ⊢
      rw [hn1]
      exact hh
    obtain ⟨hn2, extE, hext2, hadjE, hlenE⟩ :=
      extraLoop_facts (mkLayers lsr.1) L (gsgNumE minI maxI L r).1 hL
        (fun i hi => hnzL i (by rw [hlenL]; exact hi)) fuelE
        (addParentEdges (mkLayers lsr.1)
          (addNodesAll (mkLayers lsr.1) (select_categories L lsr.2).1)
          (select_categories L lsr.2).2).1
        (addParentEdges (mkLayers lsr.1)
          (addNodesAll (mkLayers lsr.1) (select_categories L lsr.2).1)
          (select_categories L lsr.2).2).2 hpres1
    rw [hgeq] at hn2 hext2 hlenE
    have hlenP' : extP.length = currentMinEdges lsr.1 := by
      rw [hlenP, mkLayers_length]
      exact sum_layers_drop_one lsr.1
    refine ⟨hlsLen, hlsLb, hlsUb, hnb.1, hnb.2, hcminLe, hcmaxGe, ?_, ?_, ?_, ?_⟩
    · intro q hq
      rw [hn2, hn1] at hq
      exact hpin0 q hq
    · intro i hi v hv
      have hh := hpres0 i (by rw [hlenL]; exact hi) v hv
      unfold UGraph.hasNode at hh ⊢
      rw [hn2, hn1]
      exact hh
    · refine ⟨extP, extE, ?_, hlenP', ?_, ?_, ?_⟩
      · rw [hext2, hext1]
      · intro e he
        obtain ⟨j, hj1, hjL, hmem1, hmem2⟩ := hadjP e he
        exact ⟨j, hj1, by rw [← hlenL]; exact hjL, hmem1, hmem2⟩
      · exact hadjE
      · apply hlenE
        rw [hext1, hlenP']
        exact hcminLe
    · intro i hi1 hiL v hv
      have hji : i ∈ (List.range (mkLayers lsr.1).length).drop 1 :=
        mem_drop_one_range_of _ i hi1 (by rw [hlenL]; exact hiL)
      obtain ⟨u, hu1, hu2⟩ := hnbP i hji v hv
      exact ⟨u, hu1, hasEdgeU_append _ v u extE g hext2 hu2⟩

/-- **C7.** In every structure graph returned by `_generate_structure_graph`
(for `1 ≤ min_items_per_layer ≤ max_items_per_layer`, `L ≥ 2` layers, any
random stream, and enough fuel for the call to return at all), every edge
connects nodes of adjacent layers — its endpoints lie in consecutive entries
of the returned layer list and their `layer` attributes differ by exactly
1 — and every node of a layer other than the first has at least one neighbor
in the preceding layer. -/
theorem C7_structure_graph_adjacency (minI maxI L fuelG fuelE : Nat) (r : Rnd)
    (hmin : 1 ≤ minI) (hmm : minI ≤ maxI) (hL : 2 ≤ L)
    (g : UGraph (Nat × Nat)) (layers : List (List (Nat × Nat)))
    (h : generate_structure_graph minI maxI (some L) fuelG fuelE r =
      some (g, layers)) :
    (∀ e ∈ g.edges, ∃ i, i + 1 < layers.length ∧
      ((e.1 ∈ layers.getD i [] ∧ e.2 ∈ layers.getD (i + 1) []) ∨
       (e.2 ∈ layers.getD i [] ∧ e.1 ∈ layers.getD (i + 1) [])) ∧
      ((attrOfS g e.1).layer + 1 = (attrOfS g e.2).layer ∨
       (attrOfS g e.2).layer + 1 = (attrOfS g e.1).layer)) ∧
    (∀ i, 1 ≤ i → i < layers.length → ∀ v ∈ layers.getD i [],
      ∃ u ∈ layers.getD (i - 1) [], g.hasEdge v u = true) := by
  obtain ⟨ls, cats, numE, hlay, hlen, hlb, hub, hnlo, hnhi, hc1, hc2, hpin, hpres,
    ⟨extP, extE, hedges, hlenP, hadjP, hadjE, hle⟩, hnbr⟩ :=
    gsg_pipeline minI maxI L fuelG fuelE r hmin hmm hL g layers h
  subst hlay
  have hlayL : (mkLayers ls).length = L := by rw [mkLayers_length, hlen]
  have hattr : ∀ i, i < L → ∀ v ∈ (mkLayers ls).getD i [],
      (attrOfS g v).layer = i + 1 := by
    intro i hi v hv
    rw [attrOfS_of_pinned g (pinnedS cats) hpin v (hpres i hi v hv)]
    show v.1 = i + 1
    exact mem_mkLayers_fst ls i v hv
  constructor
  · intro e he
    rw [hedges] at he
    rcases List.mem_append.mp he with hP | hE
    · obtain ⟨j, hj1, hjL, hm1, hm2⟩ := hadjP e hP
      refine ⟨j - 1, by rw [hlayL]; omega, Or.inr ⟨hm2, ?_⟩, Or.inr ?_⟩
      · rw [show j - 1 + 1 = j from by omega]
        exact hm1
      · rw [hattr j hjL e.1 hm1, hattr (j - 1) (by omega) e.2 hm2]
        omega
    · obtain ⟨i, hiL, hm1, hm2⟩ := hadjE e hE
      refine ⟨i, by rw [hlayL]; omega, Or.inl ⟨hm1, hm2⟩, Or.inl ?_⟩
      rw [hattr i (by omega) e.1 hm1, hattr (i + 1) hiL e.2 hm2]
  · intro i hi1 hiL v hv
    have hiL' : i < L := by rw [hlayL] at hiL; exact hiL
    exact hnbr i hi1 hiL' v hv

/-- Witness for C7 at `min = max = 1`, `L = 2` and the constant-0 stream. -/
theorem C7_witness :
    (∀ e ∈ sgW.1.edges, ∃ i, i + 1 < sgW.2.length ∧
      ((e.1 ∈ sgW.2.getD i [] ∧ e.2 ∈ sgW.2.getD (i + 1) []) ∨
       (e.2 ∈ sgW.2.getD i [] ∧ e.1 ∈ sgW.2.getD (i + 1) [])) ∧
      ((attrOfS sgW.1 e.1).layer + 1 = (attrOfS sgW.1 e.2).layer ∨
       (attrOfS sgW.1 e.2).layer + 1 = (attrOfS sgW.1 e.1).layer)) ∧
    (∀ i, 1 ≤ i → i < sgW.2.length → ∀ v ∈ sgW.2.getD i [],
      ∃ u ∈ sgW.2.getD (i - 1) [], sgW.1.hasEdge v u = true) :=
  C7_structure_graph_adjacency 1 1 2 0 0 rW (by decide) (by decide) (by decide)
    sgW.1 sgW.2 rfl

/-- **C8.** For every call of `_generate_structure_graph` with
`1 ≤ min_items_per_layer ≤ max_items_per_layer` and `L ≥ 2` layers that
returns, the edge count of the returned structure graph lies within
`[(L-1) * min_items_per_layer, (L-1) * max_items_per_layer ^ 2]`. -/
theorem C8_edge_count_bounds (minI maxI L fuelG fuelE : Nat) (r : Rnd)
    (hmin : 1 ≤ minI) (hmm : minI ≤ maxI) (hL : 2 ≤ L)
    (g : UGraph (Nat × Nat)) (layers : List (List (Nat × Nat)))
    (h : generate_structure_graph minI maxI (some L) fuelG fuelE r =
      some (g, layers)) :
    (L - 1) * minI ≤ g.edges.length ∧ g.edges.length ≤ (L - 1) * maxI ^ 2 := by
  obtain ⟨ls, cats, numE, hlay, hlen, hlb, hub, hnlo, hnhi, hc1, hc2, hpin, hpres,
    ⟨extP, extE, hedges, hlenP, hadjP, hadjE, hle⟩, hnbr⟩ :=
    gsg_pipeline minI maxI L fuelG fuelE r hmin hmm hL g layers h
  constructor
  · have h1 : extP.length ≤ g.edges.length := by
      rw [hedges, List.length_append]
      omega
    have h2 : (L - 1) * minI ≤ currentMinEdges ls := by
      unfold currentMinEdges
      have hdLen : (ls.drop 1).length = L - 1 := by
        rw [List.length_drop, hlen]
      have hges := sum_ge minI (ls.drop 1)
        (fun x hx => hlb x (List.mem_of_mem_drop hx))
      rw [hdLen] at hges
      exact hges
    exact le_trans h2 (le_trans (le_of_eq hlenP.symm) h1)
  · exact le_trans hle hnhi

/-- Witness for C8 at `min = max = 1`, `L = 2` and the constant-0 stream. -/
theorem C8_witness :
    (2 - 1) * 1 ≤ sgW.1.edges.length ∧ sgW.1.edges.length ≤ (2 - 1) * 1 ^ 2 :=
  C8_edge_count_bounds 1 1 2 0 0 rW (by decide) (by decide) (by decide)
    sgW.1 sgW.2 rfl

theorem extra_progress (ls : List Nat) (g : UGraph (Nat × Nat))
    (hadj : ∀ e ∈ g.edges, ∃ i, i + 1 < ls.length ∧
      ((e.1 ∈ (mkLayers ls).getD i [] ∧ e.2 ∈ (mkLayers ls).getD (i + 1) []) ∨
       (e.2 ∈ (mkLayers ls).getD i [] ∧ e.1 ∈ (mkLayers ls).getD (i + 1) [])))
    (hnd : (g.edges.map normEdge).Nodup)
    (hlt : g.edges.length < currentMaxEdges ls) :
    ∃ i a b, i + 1 < ls.length ∧ a ∈ (mkLayers ls).getD i [] ∧
      b ∈ (mkLayers ls).getD (i + 1) [] ∧ g.hasEdge a b = false := by
  by_contra hcon
  push_neg at hcon
  have hall : ∀ i, i + 1 < ls.length → ∀ a ∈ (mkLayers ls).getD i [],
      ∀ b ∈ (mkLayers ls).getD (i + 1) [], g.hasEdge a b = true := by
    intro i hi a ha b hb
    have hne := hcon i a b hi ha hb
    cases hcase : g.hasEdge a b with
    | false => exact absurd hcase hne
    | true => rfl
  have hsub : ((List.range (ls.length - 1)).flatMap (fun i =>
      ((mkLayers ls).getD i []).flatMap (fun a =>
        ((mkLayers ls).getD (i + 1) []).map (fun b => (a, b))))) ⊆
      g.edges.map normEdge := by
    intro x hx
    rw [List.mem_flatMap] at hx
    obtain ⟨i, hi, hx⟩ := hx
    rw [List.mem_flatMap] at hx
    obtain ⟨a, ha, hx⟩ := hx
    rw [List.mem_map] at hx
    obtain ⟨b, hb, hx⟩ := hx
    have hiL : i + 1 < ls.length := by
      have := List.mem_range.mp hi
      omega
    have hedge := hall i hiL a ha b hb
    unfold UGraph.hasEdge at hedge
    rw [List.any_eq_true] at hedge
    obtain ⟨e, he, hp⟩ := hedge
    simp only [Bool.or_eq_true, Bool.and_eq_true, decide_eq_true_eq] at hp
    have ha1 : a.1 = i + 1 := mem_mkLayers_fst ls i a ha
    have hb1 : b.1 = i + 1 + 1 := mem_mkLayers_fst ls (i + 1) b hb
    rw [List.mem_map]
    refine ⟨e, he, ?_⟩
    rcases hp with ⟨h1, h2⟩ | ⟨h1, h2⟩
    · rw [← hx]
      unfold normEdge
      rw [h1, h2, if_pos (by omega)]
      exact Prod.ext h1 h2
    · rw [← hx]
      unfold normEdge
      rw [h1, h2, if_neg (by omega)]
  have hndAP : ((List.range (ls.length - 1)).flatMap (fun i =>
      ((mkLayers ls).getD i []).flatMap (fun a =>
        ((mkLayers ls).getD (i + 1) []).map (fun b => (a, b))))).Nodup := by
    rw [List.nodup_flatMap]
    constructor
    · intro i _
      rw [List.nodup_flatMap]
      constructor
      · intro a _
        exact (mkLayers_getD_nodup ls (i + 1)).map
          (fun x y hxy => congrArg Prod.snd hxy)
      · refine List.Pairwise.imp ?_ (mkLayers_getD_nodup ls i)
        intro a a' haa x hx1 hx2
        rw [List.mem_map] at hx1 hx2
        obtain ⟨b1, _, hb1⟩ := hx1
        obtain ⟨b2, _, hb2⟩ := hx2
        apply haa
        have e1 : x.1 = a := by rw [← hb1]
        have e2 : x.1 = a' := by rw [← hb2]
        rw [← e1, ← e2]
    · refine List.Pairwise.imp ?_ (List.pairwise_lt_range (ls.length - 1))
      intro i j hij x hx1 hx2
      rw [List.mem_flatMap] at hx1 hx2
      obtain ⟨a1, ha1, hm1⟩ := hx1
      obtain ⟨a2, ha2, hm2⟩ := hx2
      rw [List.mem_map] at hm1 hm2
      obtain ⟨b1, _, hb1⟩ := hm1
      obtain ⟨b2, _, hb2⟩ := hm2
      have e1 : x.1.1 = i + 1 := by
        rw [← hb1]
        exact mem_mkLayers_fst ls i a1 ha1
      have e2 : x.1.1 = j + 1 := by
        rw [← hb2]
        exact mem_mkLayers_fst ls j a2 ha2
      omega
  have hlenAP : ((List.range (ls.length - 1)).flatMap (fun i =>
      ((mkLayers ls).getD i []).flatMap (fun a =>
        ((mkLayers ls).getD (i + 1) []).map (fun b => (a, b))))).length =
      currentMaxEdges ls := by
    rw [List.length_flatMap]
    have hc : ∀ i ∈ List.range (ls.length - 1),
        (List.length ∘ (fun i =>
          ((mkLayers ls).getD i []).flatMap (fun a =>
            ((mkLayers ls).getD (i + 1) []).map (fun b => (a, b))))) i =
        ls.getD i 0 * ls.getD (i + 1) 0 := by
      intro i hi
      have hi' : i < ls.length - 1 := List.mem_range.mp hi
      show (((mkLayers ls).getD i []).flatMap (fun a =>
        ((mkLayers ls).getD (i + 1) []).map (fun b => (a, b)))).length =
        ls.getD i 0 * ls.getD (i + 1) 0
      rw [List.length_flatMap]
      have hc2 : ∀ a ∈ (mkLayers ls).getD i [],
          (List.length ∘ (fun a => ((mkLayers ls).getD (i + 1) []).map
            (fun b => (a, b)))) a = ls.getD (i + 1) 0 := by
        intro a _
        show (((mkLayers ls).getD (i + 1) []).map (fun b => (a, b))).length =
          ls.getD (i + 1) 0
        rw [List.length_map]
        exact mkLayers_getD_length ls (i + 1) (by omega)
      rw [List.map_congr_left hc2, sum_map_const,
        mkLayers_getD_length ls i (by omega)]
    rw [List.map_congr_left hc, cmax_range ls]
  have hle2 := (hndAP.subperm hsub).length_le
  rw [hlenAP, List.length_map] at hle2
  omega

/-- **C9.** Termination of the structure-graph construction for
`1 ≤ min_items_per_layer ≤ max_items_per_layer` and `L ≥ 2` layers, in three
parts.  (1) The layer-growth loop halts: starting from
`[min_items_per_layer] * L`, fuel `L * (max - min)` suffices, because every
iteration that does not exit grows some layer by one.  (2) When the growth
loop returns and the target `num_edges` lies in the drawn range
`[(L-1)*min, (L-1)*max^2]`, the maximum possible number of adjacent-layer
edges of the final layer sizes is at least `num_edges`, so the extra-edge
target is reachable.  (3) As long as fewer than that maximum number of
distinct edges are present in a graph whose edges all join adjacent layers,
some adjacent-layer pair is still absent, so the duplicate-rejecting
extra-edge loop always has a fresh edge available and is never permanently
stuck (it halts with probability one rather than deadlocking). -/
theorem C9_termination_and_progress (minI maxI L : Nat)
    (hmin : 1 ≤ minI) (hmm : minI ≤ maxI) (hL : 2 ≤ L) :
    (∀ (numE p fuel : Nat) (r : Rnd), L * (maxI - minI) ≤ fuel →
      (growthLoop maxI numE L p fuel (List.replicate L minI) r).isSome = true) ∧
    (∀ (numE p fuel : Nat) (r : Rnd) (out : List Nat × Rnd),
      (L - 1) * minI ≤ numE → numE ≤ (L - 1) * maxI ^ 2 →
      growthLoop maxI numE L p fuel (List.replicate L minI) r = some out →
      numE ≤ currentMaxEdges out.1) ∧
    (∀ (ls : List Nat) (g : UGraph (Nat × Nat)),
      (∀ e ∈ g.edges, ∃ i, i + 1 < ls.length ∧
        ((e.1 ∈ (mkLayers ls).getD i [] ∧ e.2 ∈ (mkLayers ls).getD (i + 1) []) ∨
         (e.2 ∈ (mkLayers ls).getD i [] ∧ e.1 ∈ (mkLayers ls).getD (i + 1) []))) →
      (g.edges.map normEdge).Nodup →
      g.edges.length < currentMaxEdges ls →
      ∃ i a b, i + 1 < ls.length ∧ a ∈ (mkLayers ls).getD i [] ∧
        b ∈ (mkLayers ls).getD (i + 1) [] ∧ g.hasEdge a b = false) := by
  refine ⟨?_, ?_, ?_⟩
  · intro numE p fuel r hfuel
    apply growthLoop_terminates maxI numE L p fuel (List.replicate L minI) r
      (by simp)
      (fun x hx => by rw [List.eq_of_mem_replicate hx]; exact hmm)
    rw [List.map_replicate, List.sum_replicate, smul_eq_mul]
    exact hfuel
  · intro numE p fuel r out hnumLo hnumHi hgl
    have hpost := growthLoop_post maxI numE L p minI hmin
      (by rw [← pow_two maxI]; exact hnumHi) fuel (List.replicate L minI) r out
      hgl (by simp)
      (fun x hx => le_of_eq (List.eq_of_mem_replicate hx).symm)
      (fun x hx => by rw [List.eq_of_mem_replicate hx]; exact hmm)
      (by rw [cmin_replicate]; exact hnumLo)
    exact hpost.2.2.2.2
  · exact fun ls g hadj hnd hlt => extra_progress ls g hadj hnd hlt

/-- Witness for C9: at `min = max = 1` and `L = 2` the growth loop is
immediately done with fuel `2 * (1 - 1) = 0`; the final layer sizes `[1, 1]`
admit `num_edges = 1` extra edges; and the two-node edgeless graph `sgE`
over the sizes `[1, 1]` still has an absent adjacent-layer pair. -/
theorem C9_witness :
    (growthLoop 1 1 2 0 0 (List.replicate 2 1) rW).isSome = true ∧
    (1 : Nat) ≤ currentMaxEdges (List.replicate 2 1, rW).1 ∧
    (∃ i a b, i + 1 < [1, 1].length ∧ a ∈ (mkLayers [1, 1]).getD i [] ∧
      b ∈ (mkLayers [1, 1]).getD (i + 1) [] ∧ sgE.hasEdge a b = false) :=
  ⟨(C9_termination_and_progress 1 1 2 (by decide) (by decide) (by decide)).1
      1 0 0 rW (by decide),
   (C9_termination_and_progress 1 1 2 (by decide) (by decide) (by decide)).2.1
      1 0 0 rW (List.replicate 2 1, rW) (by decide) (by decide) rfl,
   (C9_termination_and_progress 1 1 2 (by decide) (by decide) (by decide)).2.2
      [1, 1] sgE (by intro e he; simp [sgE] at he) (by decide) (by decide)⟩

end IReason
